import Mathlib

/-!
# Redundant nested preprocessor directives

A shallow embedding of
`clang-tools-extra/clang-tidy/readability/RedundantPreprocessorCheck.cpp`.

The class `RedundantPreprocessorCallbacks` keeps three stacks of opening directives
(`IfStack`, `IfdefStack`, `IfndefStack`) and reacts to the four preprocessor callbacks
`If`, `Ifdef`, `Ifndef` and `Endif`.  The stacks become fields of a record, a callback becomes
a function from the old record to the new record together with the list of diagnostics it
emitted (in emission order).  `PP.getSourceManager().isInMainFile` is a parameter.
-/

namespace RedundantPreprocessor

/-! ## Data model -/

/-- An opaque source position (`clang::SourceLocation`); only equality is used. -/
abbrev SourceLocation := Nat

/-- Information about an opening preprocessor directive (`struct PreprocessorEntry`). -/
structure PreprocessorEntry where
  Loc : SourceLocation
  Condition : String
deriving DecidableEq, Repr

/-- The enumeration `DirectiveKind` of the callbacks class. -/
inductive DirectiveKind where
  | DK_If
  | DK_Ifdef
  | DK_Ifndef
deriving DecidableEq, Repr

/-- Severity of a diagnostic: `Check.diag(Loc, Text)` is a warning,
`Check.diag(Loc, Text, DiagnosticIDs::Note)` is a note. -/
inductive Level where
  | Warning
  | Note
deriving DecidableEq, Repr

/-- One call of `Check.diag`: the severity, the anchor and the `%select` argument streamed
into the message. -/
structure Diagnostic where
  Severity : Level
  Loc : SourceLocation
  Kind : DirectiveKind
deriving DecidableEq, Repr

/-- The mutable members of `RedundantPreprocessorCallbacks`.  A `SmallVector` is a list whose
last element is `back()`. -/
structure Tracker where
  IfStack : List PreprocessorEntry
  IfdefStack : List PreprocessorEntry
  IfndefStack : List PreprocessorEntry
deriving DecidableEq, Repr

/-- The freshly constructed callbacks object: all three stacks empty. -/
def Tracker.empty : Tracker := ⟨[], [], []⟩

/-! ## The callbacks -/

/-- The loop `for (const auto &Entry : Stack)` of `CheckMacroRedundancy`: walks the stack from
the front and, for an entry whose condition equals `MacroName`, emits the warning and then the
note. -/
def reportLoop (Loc : SourceLocation) (MacroName : String)
    (WarningKind NoteKind : DirectiveKind) : List PreprocessorEntry → List Diagnostic
  | [] => []
  | Entry :: rest =>
    (if Entry.Condition = MacroName then
      [⟨Level.Warning, Loc, WarningKind⟩, ⟨Level.Note, Entry.Loc, NoteKind⟩]
    else []) ++ reportLoop Loc MacroName WarningKind NoteKind rest

/-- The private member `CheckMacroRedundancy`; returns the new content of `Stack` and the
diagnostics emitted. -/
def CheckMacroRedundancy (isInMainFile : SourceLocation → Bool) (Loc : SourceLocation)
    (MacroName : String) (Stack : List PreprocessorEntry)
    (WarningKind NoteKind : DirectiveKind) (Store : Bool) :
    List PreprocessorEntry × List Diagnostic :=
  let diags :=
    if isInMainFile Loc then reportLoop Loc MacroName WarningKind NoteKind Stack else []
  let Stack1 := if Store then Stack ++ [⟨Loc, MacroName⟩] else Stack
  (Stack1, diags)

/-- The callback `If`; `Condition` is the source text of the condition range. -/
def If (isInMainFile : SourceLocation → Bool) (T : Tracker) (Loc : SourceLocation)
    (Condition : String) : Tracker × List Diagnostic :=
  let r := CheckMacroRedundancy isInMainFile Loc Condition T.IfStack
    DirectiveKind.DK_If DirectiveKind.DK_If true
  ({ T with IfStack := r.1 }, r.2)

/-- The callback `Ifdef`; `MacroName` is the spelling of the macro name token. -/
def Ifdef (isInMainFile : SourceLocation → Bool) (T : Tracker) (Loc : SourceLocation)
    (MacroName : String) : Tracker × List Diagnostic :=
  let r1 := CheckMacroRedundancy isInMainFile Loc MacroName T.IfdefStack
    DirectiveKind.DK_Ifdef DirectiveKind.DK_Ifdef true
  let T1 : Tracker := { T with IfdefStack := r1.1 }
  let r2 := CheckMacroRedundancy isInMainFile Loc MacroName T1.IfndefStack
    DirectiveKind.DK_Ifdef DirectiveKind.DK_Ifndef false
  ({ T1 with IfndefStack := r2.1 }, r1.2 ++ r2.2)

/-- The callback `Ifndef`. -/
def Ifndef (isInMainFile : SourceLocation → Bool) (T : Tracker) (Loc : SourceLocation)
    (MacroName : String) : Tracker × List Diagnostic :=
  let r1 := CheckMacroRedundancy isInMainFile Loc MacroName T.IfndefStack
    DirectiveKind.DK_Ifndef DirectiveKind.DK_Ifndef true
  let T1 : Tracker := { T with IfndefStack := r1.1 }
  let r2 := CheckMacroRedundancy isInMainFile Loc MacroName T1.IfdefStack
    DirectiveKind.DK_Ifndef DirectiveKind.DK_Ifdef false
  ({ T1 with IfdefStack := r2.1 }, r1.2 ++ r2.2)

/-- One statement of `Endif`:
`if (!Stack.empty() && IfLoc == Stack.back().Loc) Stack.pop_back();`. -/
def popIfBack (IfLoc : SourceLocation) (Stack : List PreprocessorEntry) :
    List PreprocessorEntry :=
  match Stack.getLast? with
  | none => Stack
  | some Back => if IfLoc = Back.Loc then Stack.dropLast else Stack

/-- The callback `Endif`: the same statement on each of the three stacks in turn.  `Loc`, the
position of the `#endif` itself, is not read. -/
def Endif (T : Tracker) (_Loc : SourceLocation) (IfLoc : SourceLocation) : Tracker :=
  let T1 : Tracker := { T with IfStack := popIfBack IfLoc T.IfStack }
  let T2 : Tracker := { T1 with IfdefStack := popIfBack IfLoc T1.IfdefStack }
  { T2 with IfndefStack := popIfBack IfLoc T2.IfndefStack }

/-! ## Event streams -/

/-- A callback invocation made by the preprocessor, with its arguments. -/
inductive Event where
  | If (Loc : SourceLocation) (Condition : String)
  | Ifdef (Loc : SourceLocation) (MacroName : String)
  | Ifndef (Loc : SourceLocation) (MacroName : String)
  | Endif (Loc : SourceLocation) (IfLoc : SourceLocation)
deriving DecidableEq, Repr

/-- Dispatch of one event to its callback. -/
def step (isInMainFile : SourceLocation → Bool) (T : Tracker) : Event → Tracker × List Diagnostic
  | Event.If Loc Condition => If isInMainFile T Loc Condition
  | Event.Ifdef Loc MacroName => Ifdef isInMainFile T Loc MacroName
  | Event.Ifndef Loc MacroName => Ifndef isInMainFile T Loc MacroName
  | Event.Endif Loc IfLoc => (Endif T Loc IfLoc, [])

/-- The callbacks invoked in stream order; the diagnostics are collected in emission order. -/
def run (isInMainFile : SourceLocation → Bool) : Tracker → List Event → Tracker × List Diagnostic
  | T, [] => (T, [])
  | T, e :: es =>
    let r1 := step isInMainFile T e
    let r2 := run isInMainFile r1.1 es
    (r2.1, r1.2 ++ r2.2)

/-! ## Vocabulary of the claims

None of the definitions below is read by the callbacks; they describe event streams. -/

/-- A directive that has been opened: its kind, location and condition text. -/
structure OpenDirective where
  Kind : DirectiveKind
  Loc : SourceLocation
  Text : String
deriving DecidableEq, Repr

/-- The directive an open event opens; `none` for `Endif`. -/
def Event.opened : Event → Option OpenDirective
  | Event.If Loc Condition => some ⟨DirectiveKind.DK_If, Loc, Condition⟩
  | Event.Ifdef Loc MacroName => some ⟨DirectiveKind.DK_Ifdef, Loc, MacroName⟩
  | Event.Ifndef Loc MacroName => some ⟨DirectiveKind.DK_Ifndef, Loc, MacroName⟩
  | Event.Endif _ _ => none

/-- Nesting of directives as the preprocessor sees it: one list of open directives,
outermost first; an open event appends, an `Endif` closes the innermost. -/
def openStep (R : List OpenDirective) (e : Event) : List OpenDirective :=
  match e.opened with
  | some o => R ++ [o]
  | none => R.dropLast

/-- The directives opened and not yet closed after the events `evs`, starting from `R`. -/
def stillOpen (R : List OpenDirective) (evs : List Event) : List OpenDirective :=
  evs.foldl openStep R

/-- Locations of the open events of a stream. -/
def openLocs (evs : List Event) : List SourceLocation :=
  evs.filterMap (fun e => e.opened.map (fun o => o.Loc))

/-- An `Endif` carries the location of the most recently opened not-yet-closed directive
among `R` (in particular there is one); nothing is asked of an open event. -/
def carriesInnermost (R : List OpenDirective) : Event → Bool
  | Event.Endif _ IfLoc => decide (R.getLast?.map (fun o => o.Loc) = some IfLoc)
  | _ => true

/-- Every `Endif` of the stream carries the location of the most recently opened
not-yet-closed directive. -/
def closesInnermost : List OpenDirective → List Event → Bool
  | _, [] => true
  | R, e :: es => carriesInnermost R e && closesInnermost (openStep R e) es

/-- Well-formed continuation of a situation in which the directives `R` are open. -/
def WellFormedFrom (R : List OpenDirective) (evs : List Event) : Prop :=
  (R.map (fun o => o.Loc) ++ openLocs evs).Nodup ∧ closesInnermost R evs = true

/-- Well-formed event stream: open locations pairwise distinct, every `Endif` carrying the
location of the most recently opened not-yet-closed directive. -/
def WellFormed (evs : List Event) : Prop :=
  (openLocs evs).Nodup ∧ closesInnermost [] evs = true

instance (R : List OpenDirective) (evs : List Event) : Decidable (WellFormedFrom R evs) := by
  unfold WellFormedFrom; infer_instance

instance (evs : List Event) : Decidable (WellFormed evs) := by
  unfold WellFormed; infer_instance

/-- The stack of kind `K` of a tracker. -/
def Tracker.stack (T : Tracker) : DirectiveKind → List PreprocessorEntry
  | DirectiveKind.DK_If => T.IfStack
  | DirectiveKind.DK_Ifdef => T.IfdefStack
  | DirectiveKind.DK_Ifndef => T.IfndefStack

/-- The entries a stack of kind `K` should hold when the directives `R` are open. -/
def entriesOf (K : DirectiveKind) (R : List OpenDirective) : List PreprocessorEntry :=
  (R.filter (fun o => decide (o.Kind = K))).map (fun o => ⟨o.Loc, o.Text⟩)

/-- The diagnostic list cut into consecutive pairs (a trailing single element is dropped). -/
def pairs : List Diagnostic → List (Diagnostic × Diagnostic)
  | a :: b :: rest => (a, b) :: pairs rest
  | _ => []

/-- The pair of diagnostics reported for a match of the directive at `Loc` against the entry
at `EntryLoc`. -/
def reportPair (Loc : SourceLocation) (WarningKind NoteKind : DirectiveKind)
    (EntryLoc : SourceLocation) : List Diagnostic :=
  [⟨Level.Warning, Loc, WarningKind⟩, ⟨Level.Note, EntryLoc, NoteKind⟩]

/-- The reports for the entries of `Stack` whose condition is `Text`, outermost to innermost. -/
def reportsFor (Loc : SourceLocation) (Text : String) (WarningKind NoteKind : DirectiveKind)
    (Stack : List PreprocessorEntry) : List Diagnostic :=
  ((Stack.filter (fun e => decide (e.Condition = Text))).map
    (fun e => reportPair Loc WarningKind NoteKind e.Loc)).flatten


/-- Exchange of the kinds `DK_Ifdef` and `DK_Ifndef`; `DK_If` stays. -/
def swapKind : DirectiveKind → DirectiveKind
  | DirectiveKind.DK_If => DirectiveKind.DK_If
  | DirectiveKind.DK_Ifdef => DirectiveKind.DK_Ifndef
  | DirectiveKind.DK_Ifndef => DirectiveKind.DK_Ifdef

/-- Exchange of the `IfdefStack` and the `IfndefStack` of a tracker. -/
def swapTracker (T : Tracker) : Tracker :=
  ⟨T.IfStack, T.IfndefStack, T.IfdefStack⟩

/-- Exchange of the kinds in a diagnostic. -/
def swapDiagnostic (d : Diagnostic) : Diagnostic :=
  ⟨d.Severity, d.Loc, swapKind d.Kind⟩

/-- Exchange applied to the result of a callback. -/
def swapResult (r : Tracker × List Diagnostic) : Tracker × List Diagnostic :=
  (swapTracker r.1, r.2.map swapDiagnostic)

/-- Predicate under which every location is in the main file. -/
def allMain : SourceLocation → Bool := fun _ => true

/-- The stream `#ifdef FOO / #ifdef FOO / #endif / #endif`, one directive a line, locations
being line numbers. -/
def ifdefTwice : List Event :=
  [Event.Ifdef 1 "FOO", Event.Ifdef 2 "FOO", Event.Endif 3 2, Event.Endif 4 1]

/-- The stream `#ifndef FOO / #ifdef FOO / #endif / #endif`. -/
def ifdefInIfndef : List Event :=
  [Event.Ifndef 1 "FOO", Event.Ifdef 2 "FOO", Event.Endif 3 2, Event.Endif 4 1]

/-- Two open events that carry the same location, as `If` and as `Ifdef`. -/
def sharedLocEvents : List Event := [Event.If 7 "X", Event.Ifdef 7 "X"]
/-- The tracker holds, on each stack, the entries of the open directives `R` of that kind. -/
def Represents (T : Tracker) (R : List OpenDirective) : Prop :=
  ∀ K, T.stack K = entriesOf K R

/-- The directives opened by the events of a stream, in opening order. -/
def openedIn (evs : List Event) : List OpenDirective :=
  evs.filterMap Event.opened

/-- The open-locations carried by the `Endif` events of a stream. -/
def closedLocs (evs : List Event) : List SourceLocation :=
  evs.filterMap (fun e =>
    match e with
    | Event.Endif _ IfLoc => some IfLoc
    | _ => none)

/-- The directives of a stream that have been opened and for which no `Endif` has arrived,
in opening order. -/
def notYetClosed (evs : List Event) : List OpenDirective :=
  (openedIn evs).filter (fun o => decide (o.Loc ∉ closedLocs evs))

/-- The kind whose stack an open event of kind `K` consults without pushing: `DK_Ifndef` for
`DK_Ifdef` and conversely, none for `DK_If`. -/
def oppositeKind : DirectiveKind → Option DirectiveKind
  | DirectiveKind.DK_If => none
  | DirectiveKind.DK_Ifdef => some DirectiveKind.DK_Ifndef
  | DirectiveKind.DK_Ifndef => some DirectiveKind.DK_Ifdef

/-- The reports of the directive `o` against the stack of the opposite kind. -/
def crossReports (T : Tracker) (o : OpenDirective) : List Diagnostic :=
  match oppositeKind o.Kind with
  | none => []
  | some K => reportsFor o.Loc o.Text o.Kind K (T.stack K)

/-- A main-file predicate for examples: the locations below 100 are in the main file, the
others in an included file. -/
def mainBelow100 : SourceLocation → Bool := fun L => decide (L < 100)

/-- A stream in which an `#ifdef X` of an included file (location 100) is still open when the
main file opens `#ifdef X` (location 1); both are closed in nesting order. -/
def includedThenMain : List Event :=
  [Event.Ifdef 100 "X", Event.If 101 "Y", Event.Ifdef 1 "X", Event.Ifndef 2 "Z",
   Event.Endif 3 2, Event.Endif 4 1, Event.Endif 102 101, Event.Endif 103 100]

/-- The open event of kind `K` at `Loc` with condition text `Text`. -/
def openEvent (K : DirectiveKind) (Loc : SourceLocation) (Text : String) : Event :=
  match K with
  | DirectiveKind.DK_If => Event.If Loc Text
  | DirectiveKind.DK_Ifdef => Event.Ifdef Loc Text
  | DirectiveKind.DK_Ifndef => Event.Ifndef Loc Text

/-- The locations stored on the three stacks of a tracker. -/
def Tracker.locs (T : Tracker) : List SourceLocation :=
  (T.IfStack ++ T.IfdefStack ++ T.IfndefStack).map (fun e => e.Loc)

/-- A properly nested block: every `Endif` carries the location of the innermost directive
that the block has opened and not yet closed, and at the end of the block none is open. -/
def Balanced (evs : List Event) : Prop :=
  closesInnermost [] evs = true ∧ stillOpen [] evs = []

instance (evs : List Event) : Decidable (Balanced evs) := by
  unfold Balanced; infer_instance

/-- A list of pairs laid out as the diagnostic stream: first component, then second. -/
def unpair (ps : List (Diagnostic × Diagnostic)) : List Diagnostic :=
  ps.flatMap (fun p => [p.1, p.2])

/-- The combinations (warning kind, note kind) the callbacks pass to
`CheckMacroRedundancy`. -/
def kindPairs : List (DirectiveKind × DirectiveKind) :=
  [(DirectiveKind.DK_If, DirectiveKind.DK_If),
   (DirectiveKind.DK_Ifdef, DirectiveKind.DK_Ifdef),
   (DirectiveKind.DK_Ifdef, DirectiveKind.DK_Ifndef),
   (DirectiveKind.DK_Ifndef, DirectiveKind.DK_Ifndef),
   (DirectiveKind.DK_Ifndef, DirectiveKind.DK_Ifdef)]

/-- A (warning, note) block with one of the kind combinations of `kindPairs`. -/
def IsReportBlock (p : Diagnostic × Diagnostic) : Prop :=
  p.1.Severity = Level.Warning ∧ p.2.Severity = Level.Note ∧ (p.1.Kind, p.2.Kind) ∈ kindPairs

/-- The stream `#if X / #if X / #if X`, three nested directives at lines 1, 2 and 3. -/
def tripleIf : List Event :=
  [Event.If 1 "X", Event.If 2 "X", Event.If 3 "X"]

/-- Two sequential, non-nested `#ifdef FOO` blocks. -/
def sequentialIfdef : List Event :=
  [Event.Ifdef 1 "FOO", Event.Endif 2 1, Event.Ifdef 3 "FOO", Event.Endif 4 3]

/-- Directives of all three kinds with pairwise different condition texts, nested, partly in
an included file (locations from 100 on). -/
def differingNest : List Event :=
  [Event.If 1 "A", Event.Ifdef 2 "B", Event.Ifndef 100 "C", Event.Ifdef 101 "D",
   Event.Endif 102 101, Event.Endif 103 100, Event.Endif 3 2, Event.If 4 "B",
   Event.Endif 5 4, Event.Endif 6 1]

/-! ## Basic facts about the callbacks -/

theorem reportLoop_eq_reportsFor (Loc : SourceLocation) (MacroName : String)
    (WarningKind NoteKind : DirectiveKind) (Stack : List PreprocessorEntry) :
    reportLoop Loc MacroName WarningKind NoteKind Stack
      = reportsFor Loc MacroName WarningKind NoteKind Stack := by
  induction Stack with
  | nil => rfl
  | cons Entry rest ih =>
    unfold reportsFor at ih ⊢
    by_cases h : Entry.Condition = MacroName
    · simp [reportLoop, h, ih, reportPair]
    · simp [reportLoop, h, ih]

theorem reportsFor_append (Loc : SourceLocation) (Text : String)
    (WarningKind NoteKind : DirectiveKind) (A B : List PreprocessorEntry) :
    reportsFor Loc Text WarningKind NoteKind (A ++ B)
      = reportsFor Loc Text WarningKind NoteKind A
        ++ reportsFor Loc Text WarningKind NoteKind B := by
  simp [reportsFor]

theorem CheckMacroRedundancy_fst (isInMainFile : SourceLocation → Bool) (Loc : SourceLocation)
    (MacroName : String) (Stack : List PreprocessorEntry)
    (WarningKind NoteKind : DirectiveKind) (Store : Bool) :
    (CheckMacroRedundancy isInMainFile Loc MacroName Stack WarningKind NoteKind Store).1
      = if Store then Stack ++ [⟨Loc, MacroName⟩] else Stack := rfl

theorem CheckMacroRedundancy_snd (isInMainFile : SourceLocation → Bool) (Loc : SourceLocation)
    (MacroName : String) (Stack : List PreprocessorEntry)
    (WarningKind NoteKind : DirectiveKind) (Store : Bool) :
    (CheckMacroRedundancy isInMainFile Loc MacroName Stack WarningKind NoteKind Store).2
      = if isInMainFile Loc then reportsFor Loc MacroName WarningKind NoteKind Stack
        else [] := by
  simp [CheckMacroRedundancy, reportLoop_eq_reportsFor]

theorem run_append (isInMainFile : SourceLocation → Bool) (T : Tracker) (a b : List Event) :
    run isInMainFile T (a ++ b)
      = ((run isInMainFile (run isInMainFile T a).1 b).1,
         (run isInMainFile T a).2 ++ (run isInMainFile (run isInMainFile T a).1 b).2) := by
  induction a generalizing T with
  | nil => simp [run]
  | cons e es ih => simp [run, ih, List.append_assoc]

theorem run_singleton (isInMainFile : SourceLocation → Bool) (T : Tracker) (e : Event) :
    run isInMainFile T [e] = step isInMainFile T e := by
  simp [run]

theorem popIfBack_concat (IfLoc : SourceLocation) (Stack : List PreprocessorEntry)
    (Back : PreprocessorEntry) :
    popIfBack IfLoc (Stack ++ [Back])
      = if IfLoc = Back.Loc then Stack else Stack ++ [Back] := by
  simp [popIfBack]

theorem popIfBack_nil (IfLoc : SourceLocation) : popIfBack IfLoc [] = [] := rfl

theorem popIfBack_of_ne (IfLoc : SourceLocation) (Stack : List PreprocessorEntry)
    (h : ∀ e, Stack.getLast? = some e → e.Loc ≠ IfLoc) : popIfBack IfLoc Stack = Stack := by
  unfold popIfBack
  cases hl : Stack.getLast? with
  | none => rfl
  | some Back =>
    have := h Back hl
    simp [Ne.symm this]

/-! ## Single-step specifications -/

/-- C2: the `If` callback reports, when `Loc` is in the main file, one warning at `Loc` and one
note at the entry for every entry of the `IfStack` with the same condition text, outermost to
innermost, both of kind `DK_If`, and nothing otherwise; afterwards the `IfStack` is the old one
with the entry for this directive appended; the `IfdefStack` and `IfndefStack` are unchanged
and have no influence on the result. -/
theorem If_spec (isInMainFile : SourceLocation → Bool) (T : Tracker) (L : SourceLocation)
    (c : String) :
    (If isInMainFile T L c).2
        = (if isInMainFile L then
            ((T.IfStack.filter (fun e => decide (e.Condition = c))).map
              (fun e => [(⟨Level.Warning, L, DirectiveKind.DK_If⟩ : Diagnostic),
                         ⟨Level.Note, e.Loc, DirectiveKind.DK_If⟩])).flatten
           else [])
      ∧ (If isInMainFile T L c).1.IfStack = T.IfStack ++ [⟨L, c⟩]
      ∧ (If isInMainFile T L c).1.IfdefStack = T.IfdefStack
      ∧ (If isInMainFile T L c).1.IfndefStack = T.IfndefStack
      ∧ ∀ T2 : Tracker, T2.IfStack = T.IfStack →
          (If isInMainFile T2 L c).2 = (If isInMainFile T L c).2
            ∧ (If isInMainFile T2 L c).1.IfStack = (If isInMainFile T L c).1.IfStack := by
  refine ⟨?_, ?_, rfl, rfl, ?_⟩
  · unfold If
    simp only [CheckMacroRedundancy_snd]; rfl
  · unfold If
    simp only [CheckMacroRedundancy_fst]; rfl
  · intro T2 h
    simp [If, h]

/-- C3: for a main-file location the `Ifdef` callback reports first a (warning `DK_Ifdef` at
`Loc`, note `DK_Ifdef` at the entry) pair for every entry of the `IfdefStack` with the same macro
name, then a (warning `DK_Ifdef` at `Loc`, note `DK_Ifndef` at the entry) pair for every such
entry of the `IfndefStack`, each group outermost to innermost; afterwards the `IfdefStack` is
the old one with this directive appended and the `IfndefStack` and `IfStack` are unchanged. -/
theorem Ifdef_spec (isInMainFile : SourceLocation → Bool) (T : Tracker) (L : SourceLocation)
    (m : String) (hmain : isInMainFile L = true) :
    (Ifdef isInMainFile T L m).2
        = ((T.IfdefStack.filter (fun e => decide (e.Condition = m))).map
            (fun e => [(⟨Level.Warning, L, DirectiveKind.DK_Ifdef⟩ : Diagnostic),
                       ⟨Level.Note, e.Loc, DirectiveKind.DK_Ifdef⟩])).flatten
          ++ ((T.IfndefStack.filter (fun e => decide (e.Condition = m))).map
            (fun e => [(⟨Level.Warning, L, DirectiveKind.DK_Ifdef⟩ : Diagnostic),
                       ⟨Level.Note, e.Loc, DirectiveKind.DK_Ifndef⟩])).flatten
      ∧ (Ifdef isInMainFile T L m).1.IfdefStack = T.IfdefStack ++ [⟨L, m⟩]
      ∧ (Ifdef isInMainFile T L m).1.IfndefStack = T.IfndefStack
      ∧ (Ifdef isInMainFile T L m).1.IfStack = T.IfStack := by
  refine ⟨?_, ?_, rfl, rfl⟩
  · unfold Ifdef
    simp only [CheckMacroRedundancy_snd, hmain]; rfl
  · unfold Ifdef
    simp only [CheckMacroRedundancy_fst]; rfl

/-- Witness of C3 on `#ifndef FOO / #ifdef FOO`: the second directive gives one warning of
kind `DK_Ifdef` at line 2 and one note of kind `DK_Ifndef` at line 1, and its entry ends up on
the `IfdefStack` only. -/
theorem Ifdef_spec_witness :
    allMain 2 = true
      ∧ (Ifdef allMain ⟨[], [], [⟨1, "FOO"⟩]⟩ 2 "FOO").2
          = [⟨Level.Warning, 2, DirectiveKind.DK_Ifdef⟩, ⟨Level.Note, 1, DirectiveKind.DK_Ifndef⟩]
      ∧ (Ifdef allMain ⟨[], [], [⟨1, "FOO"⟩]⟩ 2 "FOO").1 = ⟨[], [⟨2, "FOO"⟩], [⟨1, "FOO"⟩]⟩
      ∧ run allMain Tracker.empty (ifdefInIfndef.take 2)
          = (⟨[], [⟨2, "FOO"⟩], [⟨1, "FOO"⟩]⟩,
             [⟨Level.Warning, 2, DirectiveKind.DK_Ifdef⟩,
              ⟨Level.Note, 1, DirectiveKind.DK_Ifndef⟩])
      ∧ run allMain Tracker.empty ifdefInIfndef
          = (Tracker.empty,
             [⟨Level.Warning, 2, DirectiveKind.DK_Ifdef⟩,
              ⟨Level.Note, 1, DirectiveKind.DK_Ifndef⟩]) := by
  have h := Ifdef_spec allMain ⟨[], [], [⟨1, "FOO"⟩]⟩ 2 "FOO" rfl
  refine ⟨rfl, ?_, ?_, by decide, by decide⟩
  · rw [h.1]; decide
  · decide

/-- C4: `Ifndef` is the mirror image of `Ifdef` under the exchange of the two stacks and of the
two kinds; in particular `#ifndef X` inside an open `#ifdef X` gives a warning of kind
`DK_Ifndef` and a note of kind `DK_Ifdef`, and pushes only onto the `IfndefStack`. -/
theorem Ifndef_mirror (isInMainFile : SourceLocation → Bool) (T : Tracker) (L : SourceLocation)
    (m : String) :
    Ifndef isInMainFile T L m = swapResult (Ifdef isInMainFile (swapTracker T) L m)
      ∧ ∀ (H : SourceLocation) (A : List PreprocessorEntry), isInMainFile L = true →
          Ifndef isInMainFile ⟨A, [⟨H, m⟩], []⟩ L m
            = (⟨A, [⟨H, m⟩], [⟨L, m⟩]⟩,
               [⟨Level.Warning, L, DirectiveKind.DK_Ifndef⟩,
                ⟨Level.Note, H, DirectiveKind.DK_Ifdef⟩]) := by
  constructor
  · unfold Ifndef Ifdef swapResult swapTracker
    simp only [CheckMacroRedundancy_fst, CheckMacroRedundancy_snd]
    cases hL : isInMainFile L
    · simp
    · simp [reportsFor, reportPair, swapDiagnostic, swapKind, Function.comp_def]
  · intro H A hL
    unfold Ifndef
    simp only [CheckMacroRedundancy_fst, CheckMacroRedundancy_snd]
    simp [hL, reportsFor, reportPair]

/-- Witness of C4 on `#ifdef FOO / #ifndef FOO`. -/
theorem Ifndef_mirror_witness :
    Ifndef allMain ⟨[], [⟨1, "FOO"⟩], []⟩ 2 "FOO"
        = swapResult (Ifdef allMain (swapTracker ⟨[], [⟨1, "FOO"⟩], []⟩) 2 "FOO")
      ∧ Ifndef allMain ⟨[], [⟨1, "FOO"⟩], []⟩ 2 "FOO"
        = (⟨[], [⟨1, "FOO"⟩], [⟨2, "FOO"⟩]⟩,
            [⟨Level.Warning, 2, DirectiveKind.DK_Ifndef⟩,
             ⟨Level.Note, 1, DirectiveKind.DK_Ifdef⟩]) :=
  ⟨(Ifndef_mirror allMain ⟨[], [⟨1, "FOO"⟩], []⟩ 2 "FOO").1,
   (Ifndef_mirror allMain ⟨[], [⟨1, "FOO"⟩], []⟩ 2 "FOO").2 1 [] rfl⟩

/-- C5, as stated, fails: the open events `If` and `Ifdef` delivered with the same location 7
leave entries with that location innermost on both the `IfStack` and the `IfdefStack`; the
`Endif` for location 7 then matches the innermost `IfdefStack` entry and pops the `IfStack`
as well. -/
theorem Endif_pops_only_Ifdef_counterexample :
    (run allMain Tracker.empty sharedLocEvents).1 = ⟨[⟨7, "X"⟩], [⟨7, "X"⟩], []⟩
      ∧ (⟨[⟨7, "X"⟩], [⟨7, "X"⟩], []⟩ : Tracker).IfdefStack.getLast? = some ⟨7, "X"⟩
      ∧ (Endif ⟨[⟨7, "X"⟩], [⟨7, "X"⟩], []⟩ 9 7).IfdefStack = []
      ∧ (Endif ⟨[⟨7, "X"⟩], [⟨7, "X"⟩], []⟩ 9 7).IfStack = []
      ∧ (Endif ⟨[⟨7, "X"⟩], [⟨7, "X"⟩], []⟩ 9 7).IfStack
          ≠ (⟨[⟨7, "X"⟩], [⟨7, "X"⟩], []⟩ : Tracker).IfStack := by
  decide

/-- C5, amended: when the innermost entry of the `IfdefStack` has the location `IfLoc` and the
innermost entries of the `IfStack` and of the `IfndefStack`, if any, have another location,
`Endif` removes the innermost entry of the `IfdefStack` (its length decreases by exactly one)
and leaves the `IfStack` and the `IfndefStack` unchanged. -/
theorem Endif_pops_only_Ifdef (T : Tracker) (Loc IfLoc : SourceLocation)
    (Back : PreprocessorEntry) (hback : T.IfdefStack.getLast? = some Back)
    (hloc : Back.Loc = IfLoc)
    (hIf : ∀ e, T.IfStack.getLast? = some e → e.Loc ≠ IfLoc)
    (hIfndef : ∀ e, T.IfndefStack.getLast? = some e → e.Loc ≠ IfLoc) :
    (Endif T Loc IfLoc).IfdefStack = T.IfdefStack.dropLast
      ∧ (Endif T Loc IfLoc).IfdefStack ++ [Back] = T.IfdefStack
      ∧ (Endif T Loc IfLoc).IfdefStack.length + 1 = T.IfdefStack.length
      ∧ (Endif T Loc IfLoc).IfStack = T.IfStack
      ∧ (Endif T Loc IfLoc).IfndefStack = T.IfndefStack := by
  have hd : T.IfdefStack = T.IfdefStack.dropLast ++ [Back] := by
    have hne : T.IfdefStack ≠ [] := by
      intro h; rw [h] at hback; simp at hback
    have h1 := List.dropLast_append_getLast hne
    rw [List.getLast?_eq_getLast _ hne] at hback
    rw [← Option.some.inj hback, h1]
  have hpop : popIfBack IfLoc T.IfdefStack = T.IfdefStack.dropLast := by
    conv_lhs => rw [hd]
    rw [popIfBack_concat, hloc]; simp
  have e1 : (Endif T Loc IfLoc).IfdefStack = T.IfdefStack.dropLast := hpop
  refine ⟨e1, ?_, ?_, ?_, ?_⟩
  · rw [e1]; exact hd.symm
  · rw [e1]; conv_rhs => rw [hd]
    simp
  · exact popIfBack_of_ne IfLoc T.IfStack hIf
  · exact popIfBack_of_ne IfLoc T.IfndefStack hIfndef

/-- Witness of the amended C5: three stacks with innermost locations 1, 2 and 3; `Endif` for
location 2 pops the `IfdefStack` only. -/
theorem Endif_pops_only_Ifdef_witness :
    (Endif ⟨[⟨1, "A"⟩], [⟨5, "Y"⟩, ⟨2, "B"⟩], [⟨3, "C"⟩]⟩ 9 2).IfdefStack
        = ([⟨5, "Y"⟩, ⟨2, "B"⟩] : List PreprocessorEntry).dropLast
      ∧ (Endif ⟨[⟨1, "A"⟩], [⟨5, "Y"⟩, ⟨2, "B"⟩], [⟨3, "C"⟩]⟩ 9 2).IfdefStack ++ [⟨2, "B"⟩]
        = [⟨5, "Y"⟩, ⟨2, "B"⟩]
      ∧ (Endif ⟨[⟨1, "A"⟩], [⟨5, "Y"⟩, ⟨2, "B"⟩], [⟨3, "C"⟩]⟩ 9 2).IfdefStack.length + 1 = 2
      ∧ (Endif ⟨[⟨1, "A"⟩], [⟨5, "Y"⟩, ⟨2, "B"⟩], [⟨3, "C"⟩]⟩ 9 2).IfStack = [⟨1, "A"⟩]
      ∧ (Endif ⟨[⟨1, "A"⟩], [⟨5, "Y"⟩, ⟨2, "B"⟩], [⟨3, "C"⟩]⟩ 9 2).IfndefStack = [⟨3, "C"⟩] :=
  Endif_pops_only_Ifdef ⟨[⟨1, "A"⟩], [⟨5, "Y"⟩, ⟨2, "B"⟩], [⟨3, "C"⟩]⟩ 9 2 ⟨2, "B"⟩
    (by decide) (by decide) (by decide) (by decide)

/-! ## Well-formed streams and the open directives -/

theorem stillOpen_nil (R : List OpenDirective) : stillOpen R [] = R := rfl

theorem stillOpen_cons (R : List OpenDirective) (e : Event) (es : List Event) :
    stillOpen R (e :: es) = stillOpen (openStep R e) es := rfl

theorem stillOpen_append (R : List OpenDirective) (a b : List Event) :
    stillOpen R (a ++ b) = stillOpen (stillOpen R a) b := by
  simp [stillOpen, List.foldl_append]

theorem openStep_opened (R : List OpenDirective) (e : Event) (o : OpenDirective)
    (h : e.opened = some o) : openStep R e = R ++ [o] := by
  simp [openStep, h]

theorem openStep_Endif (R : List OpenDirective) (Loc IfLoc : SourceLocation) :
    openStep R (Event.Endif Loc IfLoc) = R.dropLast := rfl

theorem openLocs_cons_opened (e : Event) (es : List Event) (o : OpenDirective)
    (h : e.opened = some o) : openLocs (e :: es) = o.Loc :: openLocs es := by
  simp [openLocs, List.filterMap_cons, h]

theorem openLocs_cons_Endif (Loc IfLoc : SourceLocation) (es : List Event) :
    openLocs (Event.Endif Loc IfLoc :: es) = openLocs es := by
  simp [openLocs, List.filterMap_cons, Event.opened]

theorem openLocs_append (a b : List Event) : openLocs (a ++ b) = openLocs a ++ openLocs b := by
  simp [openLocs, List.filterMap_append]

theorem opened_none (e : Event) (h : e.opened = none) : ∃ Loc IfLoc, e = Event.Endif Loc IfLoc := by
  cases e <;> simp [Event.opened] at h
  exact ⟨_, _, rfl⟩

/-- The locations of the open directives are among the earlier open locations, in order. -/
theorem stillOpen_locs_sublist (evs : List Event) (R : List OpenDirective) :
    ((stillOpen R evs).map (fun o => o.Loc)).Sublist (R.map (fun o => o.Loc) ++ openLocs evs) := by
  induction evs generalizing R with
  | nil => simp [stillOpen, openLocs]
  | cons e es ih =>
    rw [stillOpen_cons]
    cases h : e.opened with
    | some o =>
      have := ih (R ++ [o])
      rw [openStep_opened R e o h, openLocs_cons_opened e es o h]
      simpa [List.append_assoc] using this
    | none =>
      obtain ⟨Loc, IfLoc, rfl⟩ := opened_none e h
      rw [openStep_Endif, openLocs_cons_Endif]
      exact (ih R.dropLast).trans
        (List.Sublist.append_right ((List.dropLast_sublist R).map _) _)

theorem wellFormedFrom_nil_iff (evs : List Event) : WellFormedFrom [] evs ↔ WellFormed evs := by
  simp [WellFormedFrom, WellFormed]

/-- Splitting off the first event of a well-formed continuation. -/
theorem wellFormedFrom_cons (R : List OpenDirective) (e : Event) (es : List Event)
    (h : WellFormedFrom R (e :: es)) :
    WellFormedFrom (openStep R e) es
      ∧ ∀ Loc IfLoc, e = Event.Endif Loc IfLoc →
          ∃ R1 o, R = R1 ++ [o] ∧ o.Loc = IfLoc := by
  obtain ⟨hnd, hci⟩ := h
  simp only [closesInnermost, Bool.and_eq_true] at hci
  refine ⟨⟨?_, hci.2⟩, ?_⟩
  · cases ho : e.opened with
    | some o =>
      rw [openStep_opened R e o ho]
      rw [openLocs_cons_opened e es o ho] at hnd
      simpa [List.append_assoc] using hnd
    | none =>
      obtain ⟨Loc, IfLoc, rfl⟩ := opened_none e ho
      rw [openStep_Endif]
      rw [openLocs_cons_Endif] at hnd
      exact hnd.sublist (List.Sublist.append_right ((List.dropLast_sublist R).map _) _)
  · rintro Loc IfLoc rfl
    have h1 := hci.1
    simp only [carriesInnermost, decide_eq_true_eq] at h1
    rcases List.eq_nil_or_concat R with hR | ⟨R1, o, hR⟩
    · subst hR; simp at h1
    · rw [List.concat_eq_append] at hR
      subst hR
      refine ⟨R1, o, rfl, ?_⟩
      simpa using h1

theorem closesInnermost_append (R : List OpenDirective) (a b : List Event) :
    closesInnermost R (a ++ b) = (closesInnermost R a && closesInnermost (stillOpen R a) b) := by
  induction a generalizing R with
  | nil => simp [closesInnermost, stillOpen]
  | cons e es ih =>
    rw [List.cons_append, closesInnermost, closesInnermost, ih, stillOpen_cons, Bool.and_assoc]

/-- A well-formed continuation stays well-formed after any of its prefixes. -/
theorem wellFormedFrom_append (R : List OpenDirective) (a b : List Event)
    (h : WellFormedFrom R (a ++ b)) :
    WellFormedFrom R a ∧ WellFormedFrom (stillOpen R a) b := by
  obtain ⟨hnd, hci⟩ := h
  rw [closesInnermost_append, Bool.and_eq_true] at hci
  rw [openLocs_append, ← List.append_assoc] at hnd
  refine ⟨⟨hnd.sublist (List.sublist_append_left _ _), hci.1⟩, ?_, hci.2⟩
  exact hnd.sublist (List.Sublist.append_right (stillOpen_locs_sublist a R) _)

/-! ## The stacks hold the open directives -/

theorem entriesOf_append (K : DirectiveKind) (A B : List OpenDirective) :
    entriesOf K (A ++ B) = entriesOf K A ++ entriesOf K B := by
  simp [entriesOf]

theorem entriesOf_singleton_same (o : OpenDirective) :
    entriesOf o.Kind [o] = [⟨o.Loc, o.Text⟩] := by
  simp [entriesOf]

theorem entriesOf_singleton_other (K : DirectiveKind) (o : OpenDirective) (h : K ≠ o.Kind) :
    entriesOf K [o] = [] := by
  simp [entriesOf, Ne.symm h]

theorem mem_entriesOf_loc (K : DirectiveKind) (R : List OpenDirective) (e : PreprocessorEntry)
    (h : e ∈ entriesOf K R) : e.Loc ∈ R.map (fun o => o.Loc) := by
  simp only [entriesOf, List.mem_map, List.mem_filter] at h
  obtain ⟨o, ⟨ho, _⟩, rfl⟩ := h
  exact List.mem_map.mpr ⟨o, ho, rfl⟩

/-- An open event appends its entry to the stack of its own kind and to no other. -/
theorem step_opened_stack (isInMainFile : SourceLocation → Bool) (T : Tracker) (e : Event)
    (o : OpenDirective) (h : e.opened = some o) (K : DirectiveKind) :
    (step isInMainFile T e).1.stack K = T.stack K ++ entriesOf K [o] := by
  cases e with
  | Endif Loc IfLoc => simp [Event.opened] at h
  | If Loc Condition =>
    simp only [Event.opened, Option.some.injEq] at h
    subst h
    cases K <;> simp [step, If, CheckMacroRedundancy, Tracker.stack, entriesOf]
  | Ifdef Loc MacroName =>
    simp only [Event.opened, Option.some.injEq] at h
    subst h
    cases K <;> simp [step, Ifdef, CheckMacroRedundancy, Tracker.stack, entriesOf]
  | Ifndef Loc MacroName =>
    simp only [Event.opened, Option.some.injEq] at h
    subst h
    cases K <;> simp [step, Ifndef, CheckMacroRedundancy, Tracker.stack, entriesOf]

theorem Endif_stack (T : Tracker) (Loc IfLoc : SourceLocation) (K : DirectiveKind) :
    (Endif T Loc IfLoc).stack K = popIfBack IfLoc (T.stack K) := by
  cases K <;> rfl

/-- On a tracker that holds the open directives `R ++ [o]`, whose locations are pairwise
distinct, the `Endif` for `o` removes the entry of `o` from the stack of its kind and leaves
the other stacks as they are. -/
theorem Endif_represents (T : Tracker) (R : List OpenDirective) (o : OpenDirective)
    (Loc : SourceLocation) (hrep : Represents T (R ++ [o]))
    (hnd : ((R ++ [o]).map (fun x => x.Loc)).Nodup) :
    Represents (Endif T Loc o.Loc) R
      ∧ T.stack o.Kind = (Endif T Loc o.Loc).stack o.Kind ++ [⟨o.Loc, o.Text⟩]
      ∧ ∀ K, K ≠ o.Kind → (Endif T Loc o.Loc).stack K = T.stack K := by
  have hnot : o.Loc ∉ R.map (fun x => x.Loc) := by
    rw [List.map_append, List.nodup_append] at hnd
    intro hmem
    exact hnd.2.2 hmem (by simp)
  have hsame : (Endif T Loc o.Loc).stack o.Kind = entriesOf o.Kind R := by
    rw [Endif_stack, hrep o.Kind, entriesOf_append, entriesOf_singleton_same,
      popIfBack_concat]
    simp
  have hother : ∀ K, K ≠ o.Kind → (Endif T Loc o.Loc).stack K = T.stack K := by
    intro K hK
    rw [Endif_stack]
    apply popIfBack_of_ne
    intro e he heq
    have hmem : e ∈ T.stack K := List.mem_of_getLast?_eq_some he
    rw [hrep K, entriesOf_append, entriesOf_singleton_other K o hK, List.append_nil] at hmem
    exact hnot (heq ▸ mem_entriesOf_loc K R e hmem)
  refine ⟨?_, ?_, hother⟩
  · intro K
    by_cases hK : K = o.Kind
    · subst hK; exact hsame
    · rw [hother K hK, hrep K, entriesOf_append, entriesOf_singleton_other K o hK,
        List.append_nil]
  · rw [hsame, hrep o.Kind, entriesOf_append, entriesOf_singleton_same]

/-- One event of a well-formed continuation keeps the stacks in step with the open
directives. -/
theorem step_represents (isInMainFile : SourceLocation → Bool) (T : Tracker)
    (R : List OpenDirective) (e : Event) (es : List Event) (hrep : Represents T R)
    (hwf : WellFormedFrom R (e :: es)) :
    Represents (step isInMainFile T e).1 (openStep R e) := by
  cases ho : e.opened with
  | some o =>
    intro K
    rw [step_opened_stack isInMainFile T e o ho K, openStep_opened R e o ho, entriesOf_append,
      hrep K]
  | none =>
    obtain ⟨Loc, IfLoc, rfl⟩ := opened_none e ho
    obtain ⟨R1, o, rfl, rfl⟩ := (wellFormedFrom_cons R _ es hwf).2 Loc IfLoc rfl
    have hnd : ((R1 ++ [o]).map (fun x => x.Loc)).Nodup :=
      hwf.1.sublist (List.sublist_append_left _ _)
    rw [openStep_Endif, List.dropLast_concat]
    exact (Endif_represents T R1 o Loc hrep hnd).1

/-- The stack invariant along a well-formed continuation. -/
theorem run_represents (isInMainFile : SourceLocation → Bool) (evs : List Event) (T : Tracker)
    (R : List OpenDirective) (hrep : Represents T R) (hwf : WellFormedFrom R evs) :
    Represents (run isInMainFile T evs).1 (stillOpen R evs) := by
  induction evs generalizing T R with
  | nil => exact hrep
  | cons e es ih =>
    rw [stillOpen_cons]
    exact ih _ _ (step_represents isInMainFile T R e es hrep hwf)
      (wellFormedFrom_cons R e es hwf).1

theorem represents_empty : Represents Tracker.empty [] := by
  intro K; cases K <;> rfl

/-- The situation just before an event of a well-formed stream. -/
theorem before_event (isInMainFile : SourceLocation → Bool) (pre post : List Event) (e : Event)
    (hwf : WellFormed (pre ++ e :: post)) :
    Represents (run isInMainFile Tracker.empty pre).1 (stillOpen [] pre)
      ∧ WellFormedFrom (stillOpen [] pre) (e :: post) := by
  have h := wellFormedFrom_append [] pre (e :: post) ((wellFormedFrom_nil_iff _).mpr hwf)
  exact ⟨run_represents isInMainFile pre _ _ represents_empty h.1, h.2⟩

/-! ## Opened and not yet closed -/

theorem wellFormed_prefix (a b : List Event) (h : WellFormed (a ++ b)) : WellFormed a :=
  (wellFormedFrom_nil_iff a).mp
    (wellFormedFrom_append [] a b ((wellFormedFrom_nil_iff _).mpr h)).1

theorem stillOpen_locs_nodup (evs : List Event) (h : WellFormed evs) :
    ((stillOpen [] evs).map (fun o => o.Loc)).Nodup := by
  have := stillOpen_locs_sublist evs []
  simp only [List.map_nil, List.nil_append] at this
  exact h.1.sublist this

theorem closedLocs_append (a b : List Event) :
    closedLocs (a ++ b) = closedLocs a ++ closedLocs b := by
  simp [closedLocs, List.filterMap_append]

theorem openedIn_append (a b : List Event) : openedIn (a ++ b) = openedIn a ++ openedIn b := by
  simp [openedIn, List.filterMap_append]

theorem closedLocs_singleton_opened (e : Event) (o : OpenDirective) (h : e.opened = some o) :
    closedLocs [e] = [] := by
  cases e <;> simp [Event.opened] at h <;> rfl

/-- In a well-formed stream every location carried by an `Endif` was opened before. -/
theorem closedLocs_subset_openLocs (evs : List Event) (h : WellFormed evs) :
    ∀ x ∈ closedLocs evs, x ∈ openLocs evs := by
  induction evs using List.reverseRecOn with
  | nil => intro x hx; simp [closedLocs] at hx
  | append_singleton l e ih =>
    have hl := wellFormed_prefix l [e] h
    have hwf := (wellFormedFrom_append [] l [e] ((wellFormedFrom_nil_iff _).mpr h)).2
    intro x hx
    rw [closedLocs_append, List.mem_append] at hx
    rw [openLocs_append, List.mem_append]
    rcases hx with hx | hx
    · exact Or.inl (ih hl x hx)
    · cases ho : e.opened with
      | some o => rw [closedLocs_singleton_opened e o ho] at hx; simp at hx
      | none =>
        obtain ⟨Loc, IfLoc, rfl⟩ := opened_none e ho
        obtain ⟨R1, o, hR, hloc⟩ := (wellFormedFrom_cons _ _ [] hwf).2 Loc IfLoc rfl
        simp only [closedLocs, List.filterMap_cons, List.filterMap_nil, List.mem_singleton] at hx
        subst hx
        left
        have hsub := (stillOpen_locs_sublist l []).subset
        have : o.Loc ∈ (stillOpen [] l).map (fun o => o.Loc) := by
          rw [hR]; simp
        simpa [hloc] using hsub this

/-- In a well-formed stream the directives on the nesting list are exactly those opened and
not yet closed, in opening order. -/
theorem stillOpen_eq_notYetClosed (evs : List Event) (h : WellFormed evs) :
    stillOpen [] evs = notYetClosed evs := by
  induction evs using List.reverseRecOn with
  | nil => rfl
  | append_singleton l e ih =>
    have hl := wellFormed_prefix l [e] h
    have hwf := (wellFormedFrom_append [] l [e] ((wellFormedFrom_nil_iff _).mpr h)).2
    have ih1 := ih hl
    rw [stillOpen_append, stillOpen_cons, stillOpen_nil]
    cases ho : e.opened with
    | some o =>
      have hfresh : o.Loc ∉ closedLocs l := by
        intro hmem
        have h1 := closedLocs_subset_openLocs l hl _ hmem
        have h2 := h.1
        rw [openLocs_append, openLocs_cons_opened e [] o ho, List.nodup_append] at h2
        exact h2.2.2 h1 (by simp)
      rw [openStep_opened _ e o ho, ih1]
      simp [notYetClosed, openedIn_append, closedLocs_append, closedLocs_singleton_opened e o ho,
        openedIn, ho, hfresh]
    | none =>
      obtain ⟨Loc, IfLoc, rfl⟩ := opened_none e ho
      obtain ⟨R1, o, hR, hloc⟩ := (wellFormedFrom_cons _ _ [] hwf).2 Loc IfLoc rfl
      have hnd := stillOpen_locs_nodup l hl
      rw [hR, List.map_append, List.nodup_append] at hnd
      have hnot : ∀ x ∈ R1, x.Loc ≠ IfLoc := by
        intro x hx heq
        exact hnd.2.2 (List.mem_map.mpr ⟨x, hx, rfl⟩) (by simp [hloc, heq])
      have hsplit : notYetClosed (l ++ [Event.Endif Loc IfLoc])
          = (notYetClosed l).filter (fun x => decide (x.Loc ≠ IfLoc)) := by
        simp [notYetClosed, openedIn_append, closedLocs_append, closedLocs, openedIn,
          Event.opened, List.filter_filter, and_comm]
      rw [hsplit, ← ih1, openStep_Endif, hR, List.dropLast_concat, List.filter_append]
      have h1 : R1.filter (fun x => decide (x.Loc ≠ IfLoc)) = R1 := by
        apply List.filter_eq_self.mpr
        intro x hx; simpa using hnot x hx
      rw [h1]
      simp [hloc]

/-! ## Diagnostics of an open event -/

/-- The diagnostics of an open event: nothing outside the main file; in the main file the
reports against the stack of its own kind followed by those against the opposite kind. -/
theorem step_opened_diags (isInMainFile : SourceLocation → Bool) (T : Tracker) (e : Event)
    (o : OpenDirective) (h : e.opened = some o) :
    (step isInMainFile T e).2
      = if isInMainFile o.Loc then
          reportsFor o.Loc o.Text o.Kind o.Kind (T.stack o.Kind) ++ crossReports T o
        else [] := by
  cases e with
  | Endif Loc IfLoc => simp [Event.opened] at h
  | If Loc Condition =>
    simp only [Event.opened, Option.some.injEq] at h
    subst h
    simp only [step, If, CheckMacroRedundancy_snd, crossReports, oppositeKind, Tracker.stack,
      List.append_nil]
  | Ifdef Loc MacroName =>
    simp only [Event.opened, Option.some.injEq] at h
    subst h
    simp only [step, Ifdef, CheckMacroRedundancy_snd, crossReports, oppositeKind, Tracker.stack]
    split <;> simp
  | Ifndef Loc MacroName =>
    simp only [Event.opened, Option.some.injEq] at h
    subst h
    simp only [step, Ifndef, CheckMacroRedundancy_snd, crossReports, oppositeKind, Tracker.stack]
    split <;> simp

theorem pairs_reportsFor_append (Loc : SourceLocation) (Text : String)
    (WarningKind NoteKind : DirectiveKind) (Stack : List PreprocessorEntry)
    (X : List Diagnostic) :
    pairs (reportsFor Loc Text WarningKind NoteKind Stack ++ X)
      = (Stack.filter (fun e => decide (e.Condition = Text))).map
          (fun e => ((⟨Level.Warning, Loc, WarningKind⟩ : Diagnostic),
                     (⟨Level.Note, e.Loc, NoteKind⟩ : Diagnostic)))
        ++ pairs X := by
  induction Stack with
  | nil => simp [reportsFor]
  | cons Entry rest ih =>
    unfold reportsFor reportPair at ih ⊢
    by_cases h : Entry.Condition = Text
    · simp [h, pairs, ih]
    · simp [h, ih]

theorem pairs_reportsFor (Loc : SourceLocation) (Text : String)
    (WarningKind NoteKind : DirectiveKind) (Stack : List PreprocessorEntry) :
    pairs (reportsFor Loc Text WarningKind NoteKind Stack)
      = (Stack.filter (fun e => decide (e.Condition = Text))).map
          (fun e => ((⟨Level.Warning, Loc, WarningKind⟩ : Diagnostic),
                     (⟨Level.Note, e.Loc, NoteKind⟩ : Diagnostic))) := by
  have := pairs_reportsFor_append Loc Text WarningKind NoteKind Stack []
  simpa [pairs] using this

theorem unpair_reportsFor_append (Loc : SourceLocation) (Text : String)
    (WarningKind NoteKind : DirectiveKind) (Stack : List PreprocessorEntry)
    (X : List Diagnostic) :
    (pairs (reportsFor Loc Text WarningKind NoteKind Stack ++ X)).flatMap (fun p => [p.1, p.2])
      = reportsFor Loc Text WarningKind NoteKind Stack
        ++ (pairs X).flatMap (fun p => [p.1, p.2]) := by
  rw [pairs_reportsFor_append, List.flatMap_append]
  congr 1
  simp [reportsFor, reportPair, List.flatMap_def, Function.comp_def]

theorem unpair_reportsFor (Loc : SourceLocation) (Text : String)
    (WarningKind NoteKind : DirectiveKind) (Stack : List PreprocessorEntry) :
    (pairs (reportsFor Loc Text WarningKind NoteKind Stack)).flatMap (fun p => [p.1, p.2])
      = reportsFor Loc Text WarningKind NoteKind Stack := by
  have := unpair_reportsFor_append Loc Text WarningKind NoteKind Stack []
  simpa [pairs] using this

/-- The reports of an open event against the stack of the opposite kind are made of pairs,
none of which has a note of the event's own kind. -/
theorem crossReports_pairs (T : Tracker) (o : OpenDirective) :
    (pairs (crossReports T o)).filter (fun p => decide (p.2.Kind = o.Kind)) = []
      ∧ (pairs (crossReports T o)).flatMap (fun p => [p.1, p.2]) = crossReports T o := by
  unfold crossReports
  cases hK : o.Kind <;> simp only [oppositeKind]
  · simp [pairs]
  · refine ⟨?_, unpair_reportsFor _ _ _ _ _⟩
    rw [pairs_reportsFor]
    simp only [List.filter_eq_nil_iff, List.mem_map, decide_eq_true_eq]
    rintro p ⟨x, _, rfl⟩
    simp
  · refine ⟨?_, unpair_reportsFor _ _ _ _ _⟩
    rw [pairs_reportsFor]
    simp only [List.filter_eq_nil_iff, List.mem_map, decide_eq_true_eq]
    rintro p ⟨x, _, rfl⟩
    simp

/-! ## Claims about well-formed streams -/

theorem filter_entriesOf {β : Type} (K : DirectiveKind) (c : String)
    (f : PreprocessorEntry → β) (R : List OpenDirective) :
    ((entriesOf K R).filter (fun e => decide (e.Condition = c))).map f
      = (R.filter (fun x => decide (x.Kind = K ∧ x.Text = c))).map
          (fun x => f ⟨x.Loc, x.Text⟩) := by
  induction R with
  | nil => rfl
  | cons x rest ih =>
    unfold entriesOf at ih ⊢
    by_cases hK : x.Kind = K <;> by_cases hc : x.Text = c <;>
      simp [List.filter_cons, hK, hc, ih]

/-- C1: in a well-formed stream run from the empty tracker, an open event of kind `K` at a
main-file location emits diagnostics that are made of (warning, note) pairs, and the pairs
whose note has kind `K` are, in order, one (warning of kind `K` at the event's location, note
of kind `K` at the directive's location) for every directive of kind `K` that is opened, not
yet closed and has the same condition text. -/
theorem same_kind_detection (isInMainFile : SourceLocation → Bool) (pre post : List Event)
    (e : Event) (o : OpenDirective) (hwf : WellFormed (pre ++ e :: post))
    (ho : e.opened = some o) (hmain : isInMainFile o.Loc = true) :
    (pairs (step isInMainFile (run isInMainFile Tracker.empty pre).1 e).2).filter
        (fun p => decide (p.2.Kind = o.Kind))
      = ((notYetClosed pre).filter (fun x => decide (x.Kind = o.Kind ∧ x.Text = o.Text))).map
          (fun x => ((⟨Level.Warning, o.Loc, o.Kind⟩ : Diagnostic),
                     (⟨Level.Note, x.Loc, o.Kind⟩ : Diagnostic)))
      ∧ (pairs (step isInMainFile (run isInMainFile Tracker.empty pre).1 e).2).flatMap
          (fun p => [p.1, p.2])
        = (step isInMainFile (run isInMainFile Tracker.empty pre).1 e).2 := by
  obtain ⟨hrep, -⟩ := before_event isInMainFile pre post e hwf
  have hpre := wellFormed_prefix pre (e :: post) hwf
  rw [step_opened_diags isInMainFile _ e o ho, hmain, if_pos rfl, hrep o.Kind,
    stillOpen_eq_notYetClosed pre hpre]
  obtain ⟨hc1, hc2⟩ := crossReports_pairs (run isInMainFile Tracker.empty pre).1 o
  constructor
  · rw [pairs_reportsFor_append, List.filter_append, hc1, List.append_nil,
      filter_entriesOf, List.filter_eq_self.mpr]
    intro p hp
    simp only [List.mem_map] at hp
    obtain ⟨x, _, rfl⟩ := hp
    simp
  · rw [unpair_reportsFor_append, hc2]

/-- Witness of C1 on `#ifdef FOO / #ifdef FOO / #endif / #endif`: the second directive gives
exactly one warning at line 2 and one note at line 1, both of kind `DK_Ifdef`, and these are
all the diagnostics of the run. -/
theorem same_kind_detection_witness :
    WellFormed ifdefTwice
      ∧ (step allMain (run allMain Tracker.empty [Event.Ifdef 1 "FOO"]).1
            (Event.Ifdef 2 "FOO")).2
          = [⟨Level.Warning, 2, DirectiveKind.DK_Ifdef⟩, ⟨Level.Note, 1, DirectiveKind.DK_Ifdef⟩]
      ∧ (pairs (step allMain (run allMain Tracker.empty [Event.Ifdef 1 "FOO"]).1
            (Event.Ifdef 2 "FOO")).2).filter (fun p => decide (p.2.Kind = DirectiveKind.DK_Ifdef))
          = [(⟨Level.Warning, 2, DirectiveKind.DK_Ifdef⟩, ⟨Level.Note, 1, DirectiveKind.DK_Ifdef⟩)]
      ∧ (run allMain Tracker.empty ifdefTwice).2
          = [⟨Level.Warning, 2, DirectiveKind.DK_Ifdef⟩,
             ⟨Level.Note, 1, DirectiveKind.DK_Ifdef⟩] := by
  have h := same_kind_detection allMain [Event.Ifdef 1 "FOO"] [Event.Endif 3 2, Event.Endif 4 1]
    (Event.Ifdef 2 "FOO") ⟨DirectiveKind.DK_Ifdef, 2, "FOO"⟩ (by decide) rfl rfl
  refine ⟨by decide, by decide, ?_, by decide⟩
  rw [h.1]
  decide

/-- C6: in a well-formed stream run from the empty tracker, an `Endif` removes the innermost
entry of the stack of the kind of the directive it closes, the removed entry being that of the
innermost directive opened and not yet closed, whose location the `Endif` carries, and leaves
the two other stacks untouched. -/
theorem Endif_pops_exactly_one (isInMainFile : SourceLocation → Bool) (pre post : List Event)
    (Loc IfLoc : SourceLocation) (hwf : WellFormed (pre ++ Event.Endif Loc IfLoc :: post)) :
    ∃ R o, notYetClosed pre = R ++ [o] ∧ o.Loc = IfLoc
      ∧ (run isInMainFile Tracker.empty pre).1.stack o.Kind
          = (step isInMainFile (run isInMainFile Tracker.empty pre).1
              (Event.Endif Loc IfLoc)).1.stack o.Kind ++ [⟨o.Loc, o.Text⟩]
      ∧ ∀ K, K ≠ o.Kind →
          (step isInMainFile (run isInMainFile Tracker.empty pre).1
              (Event.Endif Loc IfLoc)).1.stack K
            = (run isInMainFile Tracker.empty pre).1.stack K := by
  obtain ⟨hrep, hwf2⟩ := before_event isInMainFile pre post _ hwf
  have hpre := wellFormed_prefix pre _ hwf
  obtain ⟨R, o, hR, rfl⟩ := (wellFormedFrom_cons _ _ post hwf2).2 Loc IfLoc rfl
  have hnd := stillOpen_locs_nodup pre hpre
  rw [hR] at hrep hnd
  have h := Endif_represents _ R o Loc hrep hnd
  exact ⟨R, o, by rw [← stillOpen_eq_notYetClosed pre hpre, hR], rfl, h.2.1, h.2.2⟩

/-- Witness of C6 on `#ifndef FOO / #ifdef FOO / #endif / #endif`: the first `#endif` pops the
`IfdefStack` only, the second the `IfndefStack` only. -/
theorem Endif_pops_exactly_one_witness :
    WellFormed ifdefInIfndef
      ∧ (∃ R o, notYetClosed (ifdefInIfndef.take 2) = R ++ [o] ∧ o.Loc = 2
          ∧ (run allMain Tracker.empty (ifdefInIfndef.take 2)).1.stack o.Kind
              = (step allMain (run allMain Tracker.empty (ifdefInIfndef.take 2)).1
                  (Event.Endif 3 2)).1.stack o.Kind ++ [⟨o.Loc, o.Text⟩]
          ∧ ∀ K, K ≠ o.Kind →
              (step allMain (run allMain Tracker.empty (ifdefInIfndef.take 2)).1
                  (Event.Endif 3 2)).1.stack K
                = (run allMain Tracker.empty (ifdefInIfndef.take 2)).1.stack K)
      ∧ (run allMain Tracker.empty (ifdefInIfndef.take 2)).1
          = ⟨[], [⟨2, "FOO"⟩], [⟨1, "FOO"⟩]⟩
      ∧ (run allMain Tracker.empty (ifdefInIfndef.take 3)).1 = ⟨[], [], [⟨1, "FOO"⟩]⟩
      ∧ (run allMain Tracker.empty ifdefInIfndef).1 = ⟨[], [], []⟩ :=
  ⟨by decide,
   Endif_pops_exactly_one allMain (ifdefInIfndef.take 2) [Event.Endif 4 1] 3 2 (by decide),
   by decide, by decide, by decide⟩

/-- C7: after every prefix of a well-formed stream run from the empty tracker, the stack of
each kind is the list of (location, condition text) of the directives of that kind that have
been opened and not yet closed, in opening order. -/
theorem stack_invariant (isInMainFile : SourceLocation → Bool) (evs : List Event)
    (hwf : WellFormed evs) (n : Nat) (K : DirectiveKind) :
    (run isInMainFile Tracker.empty (evs.take n)).1.stack K
      = ((notYetClosed (evs.take n)).filter (fun o => decide (o.Kind = K))).map
          (fun o => (⟨o.Loc, o.Text⟩ : PreprocessorEntry)) := by
  have hpre : WellFormed (evs.take n) := by
    apply wellFormed_prefix (evs.take n) (evs.drop n)
    rw [List.take_append_drop]; exact hwf
  rw [← stillOpen_eq_notYetClosed _ hpre]
  exact run_represents isInMainFile _ _ _ represents_empty
    ((wellFormedFrom_nil_iff _).mpr hpre) K

/-- Witness of C7 on `#ifndef FOO / #ifdef FOO / #endif / #endif` after its first two
directives. -/
theorem stack_invariant_witness :
    WellFormed ifdefInIfndef
      ∧ (run allMain Tracker.empty (ifdefInIfndef.take 2)).1.stack DirectiveKind.DK_Ifdef
          = ((notYetClosed (ifdefInIfndef.take 2)).filter
              (fun o => decide (o.Kind = DirectiveKind.DK_Ifdef))).map
              (fun o => (⟨o.Loc, o.Text⟩ : PreprocessorEntry))
      ∧ (run allMain Tracker.empty (ifdefInIfndef.take 2)).1.stack DirectiveKind.DK_Ifdef
          = [⟨2, "FOO"⟩] :=
  ⟨by decide, stack_invariant allMain ifdefInIfndef (by decide) 2 DirectiveKind.DK_Ifdef,
   by decide⟩

/-! ## The main-file gate -/

/-- What a diagnostic of `reportsFor` can be: the warning at the current location, or a note
at the location of an entry of the stack with the same condition text. -/
theorem mem_reportsFor (Loc : SourceLocation) (Text : String)
    (WarningKind NoteKind : DirectiveKind) (Stack : List PreprocessorEntry) (d : Diagnostic)
    (h : d ∈ reportsFor Loc Text WarningKind NoteKind Stack) :
    d = ⟨Level.Warning, Loc, WarningKind⟩
      ∨ ∃ e ∈ Stack, e.Condition = Text ∧ d = ⟨Level.Note, e.Loc, NoteKind⟩ := by
  simp only [reportsFor, reportPair, List.mem_flatten, List.mem_map, List.mem_filter,
    decide_eq_true_eq] at h
  obtain ⟨l, ⟨e, ⟨he, hc⟩, rfl⟩, hd⟩ := h
  simp only [List.mem_cons, List.mem_singleton, List.not_mem_nil, or_false] at hd
  rcases hd with hd | hd
  · exact Or.inl hd
  · exact Or.inr ⟨e, he, hc, hd⟩

theorem mem_crossReports (T : Tracker) (o : OpenDirective) (d : Diagnostic)
    (h : d ∈ crossReports T o) :
    ∃ K, oppositeKind o.Kind = some K
      ∧ (d = ⟨Level.Warning, o.Loc, o.Kind⟩
          ∨ ∃ e ∈ T.stack K, e.Condition = o.Text ∧ d = ⟨Level.Note, e.Loc, K⟩) := by
  unfold crossReports at h
  cases hK : oppositeKind o.Kind with
  | none => rw [hK] at h; simp at h
  | some K =>
    rw [hK] at h
    exact ⟨K, rfl, mem_reportsFor _ _ _ _ _ d h⟩

/-- Every warning of one event is anchored at a main-file location. -/
theorem step_warning_in_main (isInMainFile : SourceLocation → Bool) (T : Tracker) (e : Event)
    (d : Diagnostic) (hd : d ∈ (step isInMainFile T e).2) (hw : d.Severity = Level.Warning) :
    isInMainFile d.Loc = true := by
  cases ho : e.opened with
  | none =>
    obtain ⟨Loc, IfLoc, rfl⟩ := opened_none e ho
    simp [step] at hd
  | some o =>
    rw [step_opened_diags isInMainFile T e o ho] at hd
    cases hm : isInMainFile o.Loc with
    | false => rw [hm] at hd; simp at hd
    | true =>
      rw [hm, if_pos rfl, List.mem_append] at hd
      rcases hd with hd | hd
      · rcases mem_reportsFor _ _ _ _ _ d hd with rfl | ⟨x, _, _, rfl⟩
        · exact hm
        · simp at hw
      · obtain ⟨K, _, rfl | ⟨x, _, _, rfl⟩⟩ := mem_crossReports T o d hd
        · exact hm
        · simp at hw

/-- C8: an open event whose location is not in the main file emits no diagnostic, whatever
the stacks contain; over any event stream from any state every emitted warning is anchored at
a main-file location. -/
theorem main_file_gate (isInMainFile : SourceLocation → Bool) :
    (∀ (T : Tracker) (e : Event) (o : OpenDirective), e.opened = some o →
        isInMainFile o.Loc = false → (step isInMainFile T e).2 = [])
      ∧ ∀ (T : Tracker) (evs : List Event) (d : Diagnostic),
          d ∈ (run isInMainFile T evs).2 → d.Severity = Level.Warning →
            isInMainFile d.Loc = true := by
  constructor
  · intro T e o ho hm
    rw [step_opened_diags isInMainFile T e o ho, hm]; rfl
  · intro T evs
    induction evs generalizing T with
    | nil => intro d hd; simp [run] at hd
    | cons e es ih =>
      intro d hd hw
      simp only [run, List.mem_append] at hd
      rcases hd with hd | hd
      · exact step_warning_in_main isInMainFile T e d hd hw
      · exact ih _ d hd hw

/-- Witness of C8: with an `#ifdef X` open, an `#ifdef X` at the included-file location 150
emits nothing; in the run of `includedThenMain` the warning is the one at location 1. -/
theorem main_file_gate_witness :
    (step mainBelow100 ⟨[], [⟨1, "X"⟩], [⟨2, "X"⟩]⟩ (Event.Ifdef 150 "X")).2 = []
      ∧ (⟨Level.Warning, 1, DirectiveKind.DK_Ifdef⟩ : Diagnostic)
          ∈ (run mainBelow100 Tracker.empty includedThenMain).2
      ∧ mainBelow100 1 = true :=
  ⟨(main_file_gate mainBelow100).1 ⟨[], [⟨1, "X"⟩], [⟨2, "X"⟩]⟩ (Event.Ifdef 150 "X")
      ⟨DirectiveKind.DK_Ifdef, 150, "X"⟩ rfl (by decide),
   by decide,
   (main_file_gate mainBelow100).2 Tracker.empty includedThenMain
      ⟨Level.Warning, 1, DirectiveKind.DK_Ifdef⟩ (by decide) rfl⟩

/-! ## Independence of the stacks from the main-file predicate -/

theorem step_fst_independent (P Q : SourceLocation → Bool) (T : Tracker) (e : Event) :
    (step P T e).1 = (step Q T e).1 := by
  cases e <;> rfl

/-- C9: the stacks after every event of any stream are the same under any two main-file
predicates; in particular an open event appends its entry to the stack of its kind whatever
the predicate says about its location. -/
theorem stacks_independent_of_main_file (P Q : SourceLocation → Bool) (T : Tracker)
    (evs : List Event) :
    (∀ n, (run P T (evs.take n)).1 = (run Q T (evs.take n)).1)
      ∧ ∀ (e : Event) (o : OpenDirective), e.opened = some o →
          (step P T e).1.stack o.Kind = T.stack o.Kind ++ [⟨o.Loc, o.Text⟩] := by
  constructor
  · have key : ∀ (l : List Event) (T : Tracker), (run P T l).1 = (run Q T l).1 := by
      intro l
      induction l with
      | nil => intro T; rfl
      | cons e es ih =>
        intro T
        simp only [run]
        rw [step_fst_independent P Q T e]
        exact ih _
    intro n
    exact key _ T
  · intro e o ho
    rw [step_opened_stack P T e o ho, entriesOf_singleton_same]

/-- Witness of C9 on `includedThenMain`: the same stacks whether every location or only the
locations below 100 count as main file, while the diagnostics differ. -/
theorem stacks_independent_of_main_file_witness :
    (run allMain Tracker.empty (includedThenMain.take 3)).1
        = (run mainBelow100 Tracker.empty (includedThenMain.take 3)).1
      ∧ (run mainBelow100 Tracker.empty (includedThenMain.take 3)).1
        = ⟨[⟨101, "Y"⟩], [⟨100, "X"⟩, ⟨1, "X"⟩], []⟩
      ∧ (step mainBelow100 Tracker.empty (Event.Ifdef 100 "X")).1.stack DirectiveKind.DK_Ifdef
        = Tracker.empty.stack DirectiveKind.DK_Ifdef ++ [⟨100, "X"⟩] :=
  ⟨(stacks_independent_of_main_file allMain mainBelow100 Tracker.empty includedThenMain).1 3,
   by decide,
   (stacks_independent_of_main_file mainBelow100 mainBelow100 Tracker.empty []).2
     (Event.Ifdef 100 "X") ⟨DirectiveKind.DK_Ifdef, 100, "X"⟩ rfl⟩

/-! ## Closing a directive restores the nesting -/

/-- After any events the nesting list is an initial part of the old one followed by
directives opened by these events. -/
theorem stillOpen_shape (evs : List Event) (R : List OpenDirective) :
    ∃ A B N, R = A ++ B ∧ stillOpen R evs = A ++ N ∧ ∀ x ∈ N, x.Loc ∈ openLocs evs := by
  induction evs generalizing R with
  | nil => exact ⟨R, [], [], by simp, by simp [stillOpen], by simp⟩
  | cons e es ih =>
    rw [stillOpen_cons]
    cases ho : e.opened with
    | some o =>
      rw [openStep_opened R e o ho, openLocs_cons_opened e es o ho]
      obtain ⟨A, B, N, hAB, hS, hN⟩ := ih (R ++ [o])
      rcases List.eq_nil_or_concat B with hB | ⟨B0, b, hB⟩
      · subst hB
        rw [List.append_nil] at hAB
        refine ⟨R, [], o :: N, by simp, by rw [hS, ← hAB]; simp, ?_⟩
        intro x hx
        rcases List.mem_cons.mp hx with rfl | hx
        · simp
        · exact List.mem_cons_of_mem _ (hN x hx)
      · rw [List.concat_eq_append] at hB
        subst hB
        rw [← List.append_assoc] at hAB
        have h1 := List.append_inj_left' hAB rfl
        exact ⟨A, B0, N, h1, hS, fun x hx => List.mem_cons_of_mem _ (hN x hx)⟩
    | none =>
      obtain ⟨Loc, IfLoc, rfl⟩ := opened_none e ho
      rw [openStep_Endif, openLocs_cons_Endif]
      obtain ⟨A, B, N, hAB, hS, hN⟩ := ih R.dropLast
      rcases List.eq_nil_or_concat R with hR | ⟨R0, r, hR⟩
      · subst hR
        exact ⟨A, B, N, by simpa using hAB, hS, hN⟩
      · rw [List.concat_eq_append] at hR
        subst hR
        rw [List.dropLast_concat] at hAB
        exact ⟨A, B ++ [r], N, by rw [hAB, List.append_assoc], hS, hN⟩

/-- In a well-formed continuation, when the `Endif` for the innermost directive `o` of the
start arrives the nesting list is again what it was at the start. -/
theorem stillOpen_returns (R0 : List OpenDirective) (o : OpenDirective) (seg post : List Event)
    (Loc : SourceLocation)
    (hwf : WellFormedFrom (R0 ++ [o]) (seg ++ Event.Endif Loc o.Loc :: post)) :
    stillOpen (R0 ++ [o]) seg = R0 ++ [o] := by
  obtain ⟨hseg, hend⟩ := wellFormedFrom_append _ _ _ hwf
  obtain ⟨R1, o1, hR1, hloc⟩ := (wellFormedFrom_cons _ _ post hend).2 Loc o.Loc rfl
  obtain ⟨A, B, N, hAB, hS, hN⟩ := stillOpen_shape seg (R0 ++ [o])
  have hnd := hseg.1
  rw [List.nodup_append] at hnd
  obtain ⟨hndR, -, hdisj⟩ := hnd
  have hoR : o.Loc ∈ (R0 ++ [o]).map (fun x => x.Loc) := by simp
  rcases List.eq_nil_or_concat N with hNil | ⟨N0, n, hNc⟩
  · subst hNil
    rw [List.append_nil] at hS
    rcases List.eq_nil_or_concat B with hB | ⟨B0, b, hB⟩
    · subst hB
      rw [hS, hAB, List.append_nil]
    · exfalso
      rw [List.concat_eq_append] at hB
      subst hB
      rw [← List.append_assoc] at hAB
      have h1 := List.append_inj_left' hAB rfl
      have hmem : o1 ∈ R0 := by
        rw [h1, ← hS, hR1]; simp
      rw [List.map_append, List.nodup_append] at hndR
      exact hndR.2.2 (List.mem_map.mpr ⟨o1, hmem, hloc⟩) (by simp)
  · exfalso
    rw [List.concat_eq_append] at hNc
    subst hNc
    rw [hR1, ← List.append_assoc] at hS
    have h2 := List.append_inj_right' hS rfl
    have h3 : o1 = n := by simpa using h2
    have hopen := hN n (by simp)
    rw [← h3, hloc] at hopen
    exact hdisj hoR hopen

/-- A directive of the start that is on the nesting list after `a ++ b` was on it after `a`,
provided no location is opened twice. -/
theorem mem_stillOpen_of_later (R : List OpenDirective) (a b : List Event) (o : OpenDirective)
    (hnd : (R.map (fun x => x.Loc) ++ openLocs (a ++ b)).Nodup) (hR : o ∈ R)
    (hlater : o ∈ stillOpen R (a ++ b)) : o ∈ stillOpen R a := by
  obtain ⟨A, B, N, hAB, hS, hN⟩ := stillOpen_shape a R
  by_contra hnot
  rw [openLocs_append, ← List.append_assoc, List.nodup_append] at hnd
  obtain ⟨hnd1, -, hdisj⟩ := hnd
  have hin : o.Loc ∈ R.map (fun x => x.Loc) ++ openLocs a :=
    List.mem_append_left _ (List.mem_map.mpr ⟨o, hR, rfl⟩)
  rw [stillOpen_append] at hlater
  have hsub := (stillOpen_locs_sublist b (stillOpen R a)).subset
    (List.mem_map.mpr ⟨o, hlater, rfl⟩)
  rcases List.mem_append.mp hsub with h1 | h1
  · obtain ⟨x, hx, hxloc⟩ := List.mem_map.mp h1
    have hxloc : x.Loc = o.Loc := hxloc
    rw [hS] at hx hnot
    rw [List.nodup_append] at hnd1
    rcases List.mem_append.mp hx with hxA | hxN
    · -- `x` and `o` are directives of `R` with one location
      have hxR : x ∈ R := by rw [hAB]; exact List.mem_append_left _ hxA
      have heq : x = o := by
        have hinj := List.inj_on_of_nodup_map hnd1.1
        exact hinj hxR hR hxloc
      exact hnot (List.mem_append_left _ (heq ▸ hxA))
    · exact hnd1.2.2 (List.mem_map.mpr ⟨o, hR, rfl⟩) (hxloc ▸ hN x hxN)
  · exact hdisj hin h1

/-- The reports against a stack that holds an entry with the searched text contain the pair
for that entry. -/
theorem reportsFor_of_mem (Loc : SourceLocation) (Text : String)
    (WarningKind NoteKind : DirectiveKind) (Stack : List PreprocessorEntry)
    (EntryLoc : SourceLocation) (h : (⟨EntryLoc, Text⟩ : PreprocessorEntry) ∈ Stack) :
    ∃ a b, reportsFor Loc Text WarningKind NoteKind Stack
      = a ++ [⟨Level.Warning, Loc, WarningKind⟩, ⟨Level.Note, EntryLoc, NoteKind⟩] ++ b := by
  obtain ⟨X, Y, rfl⟩ := List.append_of_mem h
  refine ⟨reportsFor Loc Text WarningKind NoteKind X,
    reportsFor Loc Text WarningKind NoteKind Y, ?_⟩
  rw [reportsFor_append]
  simp [reportsFor, reportPair]

theorem stillOpen_snoc_opened (pre seg : List Event) (e : Event) (o : OpenDirective)
    (ho : e.opened = some o) :
    stillOpen [] (pre ++ e :: seg) = stillOpen (stillOpen [] pre ++ [o]) seg := by
  rw [stillOpen_append, stillOpen_cons, openStep_opened _ e o ho]

theorem mem_entriesOf (R : List OpenDirective) (o : OpenDirective) (h : o ∈ R) :
    (⟨o.Loc, o.Text⟩ : PreprocessorEntry) ∈ entriesOf o.Kind R := by
  simp only [entriesOf, List.mem_map, List.mem_filter, decide_eq_true_eq]
  exact ⟨o, ⟨h, rfl⟩, rfl⟩

/-- C10: in a well-formed stream run from the empty tracker let a directive of kind `K` with
text `c` be opened at `H`, outside the main file, then a directive of kind `K` with the same
text at the main-file location `L`, then let the `Endif` carrying `L` and the `Endif` carrying
`H` arrive.  The first open emits nothing; the second emits a warning at `L` followed by a
note at `H`, both of kind `K`; each of the two `Endif` removes the innermost entry of the stack
of kind `K`, the entry of the directive it closes, and leaves the other stacks as they are;
after the second the stack of kind `K` is what it was before `H` was opened. -/
theorem included_directive_note_target (isInMainFile : SourceLocation → Bool)
    (pre mid mid2 mid3 post : List Event) (eH eL : Event) (K : DirectiveKind) (c : String)
    (H L E1 E2 : SourceLocation)
    (hH : eH.opened = some ⟨K, H, c⟩) (hL : eL.opened = some ⟨K, L, c⟩)
    (hwf : WellFormed (pre ++ eH :: (mid ++ eL :: (mid2 ++ Event.Endif E1 L ::
      (mid3 ++ Event.Endif E2 H :: post)))))
    (hHout : isInMainFile H = false) (hLin : isInMainFile L = true) :
    (step isInMainFile (run isInMainFile Tracker.empty pre).1 eH).2 = []
      ∧ (∃ a b, (step isInMainFile (run isInMainFile Tracker.empty (pre ++ eH :: mid)).1 eL).2
          = a ++ [⟨Level.Warning, L, K⟩, ⟨Level.Note, H, K⟩] ++ b)
      ∧ ((run isInMainFile Tracker.empty (pre ++ eH :: (mid ++ eL :: mid2))).1.stack K
          = (Endif (run isInMainFile Tracker.empty (pre ++ eH :: (mid ++ eL :: mid2))).1
              E1 L).stack K ++ [⟨L, c⟩]
        ∧ ∀ K2, K2 ≠ K →
          (Endif (run isInMainFile Tracker.empty (pre ++ eH :: (mid ++ eL :: mid2))).1
              E1 L).stack K2
            = (run isInMainFile Tracker.empty (pre ++ eH :: (mid ++ eL :: mid2))).1.stack K2)
      ∧ ((run isInMainFile Tracker.empty
            (pre ++ eH :: (mid ++ eL :: (mid2 ++ Event.Endif E1 L :: mid3)))).1.stack K
          = (Endif (run isInMainFile Tracker.empty
              (pre ++ eH :: (mid ++ eL :: (mid2 ++ Event.Endif E1 L :: mid3)))).1
              E2 H).stack K ++ [⟨H, c⟩]
        ∧ ∀ K2, K2 ≠ K →
          (Endif (run isInMainFile Tracker.empty
              (pre ++ eH :: (mid ++ eL :: (mid2 ++ Event.Endif E1 L :: mid3)))).1
              E2 H).stack K2
            = (run isInMainFile Tracker.empty
              (pre ++ eH :: (mid ++ eL :: (mid2 ++ Event.Endif E1 L :: mid3)))).1.stack K2)
      ∧ (Endif (run isInMainFile Tracker.empty
            (pre ++ eH :: (mid ++ eL :: (mid2 ++ Event.Endif E1 L :: mid3)))).1 E2 H).stack K
          = (run isInMainFile Tracker.empty pre).1.stack K := by
  -- the stream cut before each of the four events
  have cutL : pre ++ eH :: (mid ++ eL :: (mid2 ++ Event.Endif E1 L ::
        (mid3 ++ Event.Endif E2 H :: post)))
      = (pre ++ eH :: mid) ++ eL :: (mid2 ++ Event.Endif E1 L ::
        (mid3 ++ Event.Endif E2 H :: post)) := by simp
  have cutE1 : pre ++ eH :: (mid ++ eL :: (mid2 ++ Event.Endif E1 L ::
        (mid3 ++ Event.Endif E2 H :: post)))
      = (pre ++ eH :: (mid ++ eL :: mid2)) ++ Event.Endif E1 L ::
        (mid3 ++ Event.Endif E2 H :: post) := by simp
  have cutE2 : pre ++ eH :: (mid ++ eL :: (mid2 ++ Event.Endif E1 L ::
        (mid3 ++ Event.Endif E2 H :: post)))
      = (pre ++ eH :: (mid ++ eL :: (mid2 ++ Event.Endif E1 L :: mid3)))
        ++ Event.Endif E2 H :: post := by simp
  -- before `H` is opened
  obtain ⟨rep0, wf0⟩ := before_event isInMainFile pre _ eH hwf
  have wfH := (wellFormedFrom_cons _ _ _ wf0).1
  rw [openStep_opened _ eH _ hH] at wfH
  -- before `L` is opened
  obtain ⟨rep1, wf1⟩ := before_event isInMainFile (pre ++ eH :: mid) _ eL (cutL ▸ hwf)
  have wfL := (wellFormedFrom_cons _ _ _ wf1).1
  rw [openStep_opened _ eL _ hL] at wfL
  -- before the `Endif` for `L`
  obtain ⟨rep2, -⟩ := before_event isInMainFile (pre ++ eH :: (mid ++ eL :: mid2)) _
    (Event.Endif E1 L) (cutE1 ▸ hwf)
  have open2 : stillOpen [] (pre ++ eH :: (mid ++ eL :: mid2))
      = stillOpen [] (pre ++ eH :: mid) ++ [⟨K, L, c⟩] := by
    have h1 : pre ++ eH :: (mid ++ eL :: mid2) = (pre ++ eH :: mid) ++ eL :: mid2 := by simp
    rw [h1, stillOpen_snoc_opened _ _ eL _ hL]
    exact stillOpen_returns _ ⟨K, L, c⟩ mid2 _ E1 wfL
  rw [open2] at rep2
  have nd2 : ((stillOpen [] (pre ++ eH :: mid) ++ [(⟨K, L, c⟩ : OpenDirective)]).map
      (fun x => x.Loc)).Nodup :=
    wfL.1.sublist (List.sublist_append_left _ _)
  have hE1 := Endif_represents _ _ ⟨K, L, c⟩ E1 rep2 nd2
  -- before the `Endif` for `H`
  obtain ⟨rep3, -⟩ := before_event isInMainFile
    (pre ++ eH :: (mid ++ eL :: (mid2 ++ Event.Endif E1 L :: mid3))) _
    (Event.Endif E2 H) (cutE2 ▸ hwf)
  have wfH2 : WellFormedFrom (stillOpen [] pre ++ [⟨K, H, c⟩])
      ((mid ++ eL :: (mid2 ++ Event.Endif E1 L :: mid3)) ++ Event.Endif E2 H :: post) := by
    have h1 : (mid ++ eL :: (mid2 ++ Event.Endif E1 L :: mid3)) ++ Event.Endif E2 H :: post
        = mid ++ eL :: (mid2 ++ Event.Endif E1 L :: (mid3 ++ Event.Endif E2 H :: post)) := by
      simp
    rw [h1]; exact wfH
  have ret3 := stillOpen_returns _ ⟨K, H, c⟩ _ _ E2 wfH2
  have open3 : stillOpen [] (pre ++ eH :: (mid ++ eL :: (mid2 ++ Event.Endif E1 L :: mid3)))
      = stillOpen [] pre ++ [⟨K, H, c⟩] := by
    rw [stillOpen_snoc_opened _ _ eH _ hH]; exact ret3
  rw [open3] at rep3
  have nd3 : ((stillOpen [] pre ++ [(⟨K, H, c⟩ : OpenDirective)]).map
      (fun x => x.Loc)).Nodup :=
    wfH.1.sublist (List.sublist_append_left _ _)
  have hE2 := Endif_represents _ _ ⟨K, H, c⟩ E2 rep3 nd3
  -- `H` is still open when `L` is opened
  have stillH : (⟨K, H, c⟩ : OpenDirective) ∈ stillOpen [] (pre ++ eH :: mid) := by
    rw [stillOpen_snoc_opened _ _ eH _ hH]
    apply mem_stillOpen_of_later _ mid (eL :: (mid2 ++ Event.Endif E1 L :: mid3))
    · exact (wellFormedFrom_append _ _ _ wfH2).1.1
    · simp
    · rw [ret3]; simp
  refine ⟨?_, ?_, ⟨hE1.2.1, hE1.2.2⟩, ⟨hE2.2.1, hE2.2.2⟩, ?_⟩
  · rw [step_opened_diags isInMainFile _ eH _ hH]
    simp [hHout]
  · rw [step_opened_diags isInMainFile _ eL _ hL]
    simp only [hLin, if_true]
    have hmem := mem_entriesOf _ _ stillH
    rw [← rep1 K] at hmem
    obtain ⟨a, b, hab⟩ := reportsFor_of_mem L c K K _ H hmem
    refine ⟨a, b ++ crossReports (run isInMainFile Tracker.empty (pre ++ eH :: mid)).1
      ⟨K, L, c⟩, ?_⟩
    show reportsFor L c K K _ ++ _ = _
    rw [hab]; simp
  · rw [hE2.1 K, rep0 K]

/-- Witness of C10 on `includedThenMain`, where only the locations below 100 are in the main
file: the `#ifdef X` at 100 emits nothing, the `#ifdef X` at 1 emits the warning at 1 and the
note at 100, and the two `Endif` bring the `IfdefStack` back to `[100]` and then to empty. -/
theorem included_directive_note_target_witness :
    WellFormed includedThenMain
      ∧ (step mainBelow100 Tracker.empty (Event.Ifdef 100 "X")).2 = []
      ∧ (step mainBelow100 (run mainBelow100 Tracker.empty (includedThenMain.take 2)).1
          (Event.Ifdef 1 "X")).2
          = [⟨Level.Warning, 1, DirectiveKind.DK_Ifdef⟩, ⟨Level.Note, 100, DirectiveKind.DK_Ifdef⟩]
      ∧ (run mainBelow100 Tracker.empty (includedThenMain.take 5)).1
          = ⟨[⟨101, "Y"⟩], [⟨100, "X"⟩, ⟨1, "X"⟩], []⟩
      ∧ (run mainBelow100 Tracker.empty (includedThenMain.take 6)).1
          = ⟨[⟨101, "Y"⟩], [⟨100, "X"⟩], []⟩
      ∧ (run mainBelow100 Tracker.empty (includedThenMain.take 7)).1
          = ⟨[], [⟨100, "X"⟩], []⟩
      ∧ (run mainBelow100 Tracker.empty includedThenMain).1 = ⟨[], [], []⟩
      ∧ (Endif (run mainBelow100 Tracker.empty
            ([] ++ Event.Ifdef 100 "X" :: ([Event.If 101 "Y"] ++ Event.Ifdef 1 "X" ::
              ([Event.Ifndef 2 "Z", Event.Endif 3 2] ++ Event.Endif 4 1 ::
                [Event.Endif 102 101])))).1 103 100).stack DirectiveKind.DK_Ifdef
          = (run mainBelow100 Tracker.empty []).1.stack DirectiveKind.DK_Ifdef := by
  have h := included_directive_note_target mainBelow100 [] [Event.If 101 "Y"]
    [Event.Ifndef 2 "Z", Event.Endif 3 2] [Event.Endif 102 101] []
    (Event.Ifdef 100 "X") (Event.Ifdef 1 "X") DirectiveKind.DK_Ifdef "X" 100 1 4 103
    rfl rfl (by decide) (by decide) (by decide)
  exact ⟨by decide, by decide, by decide, by decide, by decide, by decide, by decide,
    h.2.2.2.2⟩

/-! ## `Endif` without a match -/

/-- C11: when `IfLoc` is not the location of the innermost entry of any of the three stacks
(stacks may be empty, and `IfLoc` may be the location of an entry that is not innermost),
`Endif` leaves all three stacks unchanged; and an `Endif` event emits no diagnostic in any
state for any `IfLoc`. -/
theorem Endif_no_match (isInMainFile : SourceLocation → Bool) (T : Tracker)
    (Loc IfLoc : SourceLocation)
    (hIf : ∀ e, T.IfStack.getLast? = some e → e.Loc ≠ IfLoc)
    (hIfdef : ∀ e, T.IfdefStack.getLast? = some e → e.Loc ≠ IfLoc)
    (hIfndef : ∀ e, T.IfndefStack.getLast? = some e → e.Loc ≠ IfLoc) :
    Endif T Loc IfLoc = T
      ∧ (step isInMainFile T (Event.Endif Loc IfLoc)).1 = T
      ∧ ∀ (T2 : Tracker) (Loc2 IfLoc2 : SourceLocation),
          (step isInMainFile T2 (Event.Endif Loc2 IfLoc2)).2 = [] := by
  have h : Endif T Loc IfLoc = T := by
    unfold Endif
    simp only [popIfBack_of_ne IfLoc T.IfStack hIf, popIfBack_of_ne IfLoc T.IfdefStack hIfdef,
      popIfBack_of_ne IfLoc T.IfndefStack hIfndef]
  exact ⟨h, h, fun _ _ _ => rfl⟩

/-- Witness of C11: location 1 is stored on the `IfStack` but not innermost, the `IfdefStack`
has another innermost location and the `IfndefStack` is empty; `Endif` for location 1 changes
nothing.  The same on the empty tracker. -/
theorem Endif_no_match_witness :
    (Endif ⟨[⟨1, "A"⟩, ⟨2, "B"⟩], [⟨3, "C"⟩], []⟩ 9 1
        = ⟨[⟨1, "A"⟩, ⟨2, "B"⟩], [⟨3, "C"⟩], []⟩)
      ∧ Endif Tracker.empty 9 1 = Tracker.empty
      ∧ (step allMain ⟨[⟨1, "A"⟩, ⟨2, "B"⟩], [⟨3, "C"⟩], []⟩ (Event.Endif 9 2)).2 = [] :=
  ⟨(Endif_no_match allMain ⟨[⟨1, "A"⟩, ⟨2, "B"⟩], [⟨3, "C"⟩], []⟩ 9 1
      (by decide) (by decide) (by decide)).1,
   by decide,
   (Endif_no_match allMain ⟨[⟨1, "A"⟩, ⟨2, "B"⟩], [⟨3, "C"⟩], []⟩ 9 1
      (by decide) (by decide) (by decide)).2.2 _ 9 2⟩

/-! ## A directive is not reported against itself -/

theorem oppositeKind_ne (K K2 : DirectiveKind) (h : oppositeKind K = some K2) : K2 ≠ K := by
  cases K <;> cases K2 <;> simp [oppositeKind] at h ⊢

/-- The notes of an open event point at entries of the stacks as they were before it. -/
theorem step_note_stored (isInMainFile : SourceLocation → Bool) (T : Tracker) (e : Event)
    (o : OpenDirective) (ho : e.opened = some o) (d : Diagnostic)
    (hd : d ∈ (step isInMainFile T e).2) (hn : d.Severity = Level.Note) :
    ∃ x ∈ T.stack d.Kind, x.Loc = d.Loc ∧ x.Condition = o.Text := by
  rw [step_opened_diags isInMainFile T e o ho] at hd
  cases hm : isInMainFile o.Loc with
  | false => rw [hm] at hd; simp at hd
  | true =>
    rw [hm, if_pos rfl, List.mem_append] at hd
    rcases hd with hd | hd
    · rcases mem_reportsFor _ _ _ _ _ d hd with rfl | ⟨x, hx, hc, rfl⟩
      · simp at hn
      · exact ⟨x, hx, rfl, hc⟩
    · obtain ⟨K, _, rfl | ⟨x, hx, hc, rfl⟩⟩ := mem_crossReports T o d hd
      · simp at hn
      · exact ⟨x, hx, rfl, hc⟩

theorem mem_locs_of_mem_stack (T : Tracker) (K : DirectiveKind) (x : PreprocessorEntry)
    (h : x ∈ T.stack K) : x.Loc ∈ T.locs := by
  unfold Tracker.locs
  apply List.mem_map.mpr
  refine ⟨x, ?_, rfl⟩
  cases K <;> simp only [Tracker.stack] at h <;> simp [h]

/-- C16: every note emitted by an open event is anchored at the location of an entry that was
on the stack of the note's kind before the event, an entry with the event's condition text;
hence an open event on a tracker whose stacks are all empty emits nothing, and when the new
location differs from all stored locations no note is anchored at the event's location, where
its warnings are. -/
theorem not_reported_against_itself (isInMainFile : SourceLocation → Bool) (T : Tracker)
    (e : Event) (o : OpenDirective) (ho : e.opened = some o) :
    (∀ d ∈ (step isInMainFile T e).2, d.Severity = Level.Note →
        ∃ x ∈ T.stack d.Kind, x.Loc = d.Loc ∧ x.Condition = o.Text)
      ∧ (∀ d ∈ (step isInMainFile T e).2, d.Severity = Level.Warning → d.Loc = o.Loc)
      ∧ (T.IfStack = [] → T.IfdefStack = [] → T.IfndefStack = [] →
          (step isInMainFile T e).2 = [])
      ∧ (o.Loc ∉ T.locs →
          ∀ d ∈ (step isInMainFile T e).2, d.Severity = Level.Note → d.Loc ≠ o.Loc) := by
  have hnote := step_note_stored isInMainFile T e o ho
  refine ⟨hnote, ?_, ?_, ?_⟩
  · intro d hd hw
    rw [step_opened_diags isInMainFile T e o ho] at hd
    cases hm : isInMainFile o.Loc with
    | false => rw [hm] at hd; simp at hd
    | true =>
      rw [hm, if_pos rfl, List.mem_append] at hd
      rcases hd with hd | hd
      · rcases mem_reportsFor _ _ _ _ _ d hd with rfl | ⟨x, _, _, rfl⟩
        · rfl
        · simp at hw
      · obtain ⟨K, _, rfl | ⟨x, _, _, rfl⟩⟩ := mem_crossReports T o d hd
        · rfl
        · simp at hw
  · intro h1 h2 h3
    have hempty : ∀ K, T.stack K = [] := by
      intro K; cases K <;> simp [Tracker.stack, h1, h2, h3]
    rw [step_opened_diags isInMainFile T e o ho]
    have hc : crossReports T o = [] := by
      unfold crossReports
      cases oppositeKind o.Kind with
      | none => rfl
      | some K => simp [hempty K, reportsFor]
    simp [hempty, hc, reportsFor]
  · intro hfresh d hd hn heq
    obtain ⟨x, hx, hloc, _⟩ := hnote d hd hn
    exact hfresh (heq ▸ hloc ▸ mem_locs_of_mem_stack T d.Kind x hx)

/-- Witness of C16: `#ifdef X` at location 4 on a tracker that stores the locations 1, 2 and
3; its notes are anchored at 2 and 3, its warnings at 4; on the empty tracker it is silent. -/
theorem not_reported_against_itself_witness :
    (step allMain ⟨[⟨1, "X"⟩], [⟨2, "X"⟩], [⟨3, "X"⟩]⟩ (Event.Ifdef 4 "X")).2
        = [⟨Level.Warning, 4, DirectiveKind.DK_Ifdef⟩, ⟨Level.Note, 2, DirectiveKind.DK_Ifdef⟩,
           ⟨Level.Warning, 4, DirectiveKind.DK_Ifdef⟩, ⟨Level.Note, 3, DirectiveKind.DK_Ifndef⟩]
      ∧ (∀ d ∈ (step allMain ⟨[⟨1, "X"⟩], [⟨2, "X"⟩], [⟨3, "X"⟩]⟩ (Event.Ifdef 4 "X")).2,
          d.Severity = Level.Note → d.Loc ≠ 4)
      ∧ (step allMain Tracker.empty (Event.Ifdef 4 "X")).2 = [] :=
  ⟨by decide,
   (not_reported_against_itself allMain ⟨[⟨1, "X"⟩], [⟨2, "X"⟩], [⟨3, "X"⟩]⟩
      (Event.Ifdef 4 "X") ⟨DirectiveKind.DK_Ifdef, 4, "X"⟩ rfl).2.2.2 (by decide),
   (not_reported_against_itself allMain Tracker.empty
      (Event.Ifdef 4 "X") ⟨DirectiveKind.DK_Ifdef, 4, "X"⟩ rfl).2.2.1 rfl rfl rfl⟩

/-! ## Shape of the diagnostic stream -/

theorem unpair_nil : unpair [] = [] := rfl

theorem unpair_cons (p : Diagnostic × Diagnostic) (ps : List (Diagnostic × Diagnostic)) :
    unpair (p :: ps) = p.1 :: p.2 :: unpair ps := by
  simp [unpair]

theorem unpair_append (ps qs : List (Diagnostic × Diagnostic)) :
    unpair (ps ++ qs) = unpair ps ++ unpair qs := by
  simp [unpair]

theorem pairs_unpair (ps : List (Diagnostic × Diagnostic)) : pairs (unpair ps) = ps := by
  induction ps with
  | nil => rfl
  | cons p ps ih => rw [unpair_cons, pairs, ih]

theorem reportsFor_eq_unpair (Loc : SourceLocation) (Text : String)
    (WarningKind NoteKind : DirectiveKind) (Stack : List PreprocessorEntry) :
    reportsFor Loc Text WarningKind NoteKind Stack
      = unpair ((Stack.filter (fun e => decide (e.Condition = Text))).map
          (fun e => ((⟨Level.Warning, Loc, WarningKind⟩ : Diagnostic),
                     (⟨Level.Note, e.Loc, NoteKind⟩ : Diagnostic)))) := by
  rw [← pairs_reportsFor]
  exact (unpair_reportsFor Loc Text WarningKind NoteKind Stack).symm

/-- The diagnostics of one event are report blocks laid out one after the other. -/
theorem step_blocks (isInMainFile : SourceLocation → Bool) (T : Tracker) (e : Event) :
    ∃ ps, (step isInMainFile T e).2 = unpair ps ∧ ∀ p ∈ ps, IsReportBlock p := by
  cases ho : e.opened with
  | none =>
    obtain ⟨Loc, IfLoc, rfl⟩ := opened_none e ho
    exact ⟨[], rfl, by simp⟩
  | some o =>
    rw [step_opened_diags isInMainFile T e o ho]
    cases isInMainFile o.Loc with
    | false => exact ⟨[], rfl, by simp⟩
    | true =>
      rw [if_pos rfl, reportsFor_eq_unpair]
      have hcross : ∃ qs, crossReports T o = unpair qs ∧ ∀ p ∈ qs, IsReportBlock p := by
        unfold crossReports
        cases hK : o.Kind <;> simp only [oppositeKind]
        · exact ⟨[], rfl, by simp⟩
        · refine ⟨_, reportsFor_eq_unpair _ _ _ _ _, ?_⟩
          intro p hp
          obtain ⟨x, _, rfl⟩ := List.mem_map.mp hp
          simp [IsReportBlock, kindPairs]
        · refine ⟨_, reportsFor_eq_unpair _ _ _ _ _, ?_⟩
          intro p hp
          obtain ⟨x, _, rfl⟩ := List.mem_map.mp hp
          simp [IsReportBlock, kindPairs]
      obtain ⟨qs, hq, hqs⟩ := hcross
      refine ⟨_ ++ qs, by rw [unpair_append, hq], ?_⟩
      intro p hp
      rcases List.mem_append.mp hp with hp | hp
      · obtain ⟨x, _, rfl⟩ := List.mem_map.mp hp
        cases hK : o.Kind <;> simp [IsReportBlock, kindPairs]
      · exact hqs p hp

/-- The diagnostics of a run are report blocks laid out one after the other. -/
theorem run_blocks (isInMainFile : SourceLocation → Bool) (evs : List Event) (T : Tracker) :
    ∃ ps, (run isInMainFile T evs).2 = unpair ps ∧ ∀ p ∈ ps, IsReportBlock p := by
  induction evs generalizing T with
  | nil => exact ⟨[], rfl, by simp⟩
  | cons e es ih =>
    obtain ⟨ps, hps, hp⟩ := step_blocks isInMainFile T e
    obtain ⟨qs, hqs, hq⟩ := ih (step isInMainFile T e).1
    refine ⟨ps ++ qs, ?_, ?_⟩
    · simp only [run]
      rw [hps, hqs, unpair_append]
    · intro p h
      rcases List.mem_append.mp h with h | h
      · exact hp p h
      · exact hq p h

theorem count_blocks (ps : List (Diagnostic × Diagnostic)) (h : ∀ p ∈ ps, IsReportBlock p) :
    ((unpair ps).filter (fun d => decide (d.Severity = Level.Warning))).length = ps.length
      ∧ ((unpair ps).filter (fun d => decide (d.Severity = Level.Note))).length = ps.length := by
  induction ps with
  | nil => exact ⟨rfl, rfl⟩
  | cons p ps ih =>
    obtain ⟨h1, h2, -⟩ := h p (List.mem_cons_self _ _)
    obtain ⟨ih1, ih2⟩ := ih (fun q hq => h q (List.mem_cons_of_mem _ hq))
    rw [unpair_cons]
    constructor
    · simp [List.filter_cons, h1, h2, ih1]
    · simp [List.filter_cons, h1, h2, ih2]

/-- C15: the diagnostics of any event stream from any state are a concatenation of adjacent
two-element blocks, a warning followed by its note, so warnings and notes are equal in number;
the (warning kind, note kind) of every block is one of (If, If), (Ifdef, Ifdef),
(Ifdef, Ifndef), (Ifndef, Ifndef), (Ifndef, Ifdef), so that the kind `DK_If` is only ever paired
with itself. -/
theorem diagnostics_shape (isInMainFile : SourceLocation → Bool) (T : Tracker)
    (evs : List Event) :
    unpair (pairs (run isInMainFile T evs).2) = (run isInMainFile T evs).2
      ∧ (∀ p ∈ pairs (run isInMainFile T evs).2,
          p.1.Severity = Level.Warning ∧ p.2.Severity = Level.Note
            ∧ (p.1.Kind, p.2.Kind) ∈
                [(DirectiveKind.DK_If, DirectiveKind.DK_If),
                 (DirectiveKind.DK_Ifdef, DirectiveKind.DK_Ifdef),
                 (DirectiveKind.DK_Ifdef, DirectiveKind.DK_Ifndef),
                 (DirectiveKind.DK_Ifndef, DirectiveKind.DK_Ifndef),
                 (DirectiveKind.DK_Ifndef, DirectiveKind.DK_Ifdef)]
            ∧ (p.1.Kind = DirectiveKind.DK_If ↔ p.2.Kind = DirectiveKind.DK_If))
      ∧ ((run isInMainFile T evs).2.filter
            (fun d => decide (d.Severity = Level.Warning))).length
          = ((run isInMainFile T evs).2.filter
            (fun d => decide (d.Severity = Level.Note))).length := by
  obtain ⟨ps, hps, hp⟩ := run_blocks isInMainFile evs T
  rw [hps, pairs_unpair]
  refine ⟨rfl, ?_, ?_⟩
  · intro p hmem
    obtain ⟨h1, h2, h3⟩ := hp p hmem
    refine ⟨h1, h2, h3, ?_⟩
    simp only [kindPairs, List.mem_cons, Prod.mk.injEq, List.mem_singleton, List.not_mem_nil,
      or_false] at h3
    rcases h3 with ⟨a, b⟩ | ⟨a, b⟩ | ⟨a, b⟩ | ⟨a, b⟩ | ⟨a, b⟩ <;> simp [a, b]
  · rw [(count_blocks ps hp).1, (count_blocks ps hp).2]

/-- Witness of C15: `#if X` nested in `#ifdef X` and `#ifndef X` of the same text is paired
with neither; an `#ifdef X` there is paired with both. -/
theorem diagnostics_shape_witness :
    (run allMain Tracker.empty [Event.Ifdef 1 "X", Event.Ifndef 2 "X", Event.If 3 "X"]).2
        = [⟨Level.Warning, 2, DirectiveKind.DK_Ifndef⟩, ⟨Level.Note, 1, DirectiveKind.DK_Ifdef⟩]
      ∧ (run allMain ⟨[⟨1, "X"⟩], [⟨2, "X"⟩], [⟨3, "X"⟩]⟩ [Event.Ifdef 4 "X"]).2
        = [⟨Level.Warning, 4, DirectiveKind.DK_Ifdef⟩, ⟨Level.Note, 2, DirectiveKind.DK_Ifdef⟩,
           ⟨Level.Warning, 4, DirectiveKind.DK_Ifdef⟩, ⟨Level.Note, 3, DirectiveKind.DK_Ifndef⟩]
      ∧ unpair (pairs (run allMain ⟨[⟨1, "X"⟩], [⟨2, "X"⟩], [⟨3, "X"⟩]⟩ [Event.Ifdef 4 "X"]).2)
        = (run allMain ⟨[⟨1, "X"⟩], [⟨2, "X"⟩], [⟨3, "X"⟩]⟩ [Event.Ifdef 4 "X"]).2 :=
  ⟨by decide, by decide,
   (diagnostics_shape allMain ⟨[⟨1, "X"⟩], [⟨2, "X"⟩], [⟨3, "X"⟩]⟩ [Event.Ifdef 4 "X"]).1⟩

/-! ## No report without equal condition texts -/

theorem reportsFor_eq_nil (Loc : SourceLocation) (Text : String)
    (WarningKind NoteKind : DirectiveKind) (Stack : List PreprocessorEntry)
    (h : ∀ x ∈ Stack, x.Condition ≠ Text) :
    reportsFor Loc Text WarningKind NoteKind Stack = [] := by
  have hf : Stack.filter (fun e => decide (e.Condition = Text)) = [] := by
    rw [List.filter_eq_nil_iff]
    intro x hx
    simpa using h x hx
  simp [reportsFor, hf]

theorem mem_entriesOf_text (K : DirectiveKind) (R : List OpenDirective) (x : PreprocessorEntry)
    (h : x ∈ entriesOf K R) : ∃ o ∈ R, o.Text = x.Condition := by
  simp only [entriesOf, List.mem_map, List.mem_filter] at h
  obtain ⟨o, ⟨ho, _⟩, rfl⟩ := h
  exact ⟨o, ho, rfl⟩

/-- An open event whose text differs from the text of every open directive is silent. -/
theorem step_silent (isInMainFile : SourceLocation → Bool) (T : Tracker)
    (R : List OpenDirective) (e : Event) (o : OpenDirective) (hrep : Represents T R)
    (ho : e.opened = some o) (hdiff : ∀ x ∈ R, x.Text ≠ o.Text) :
    (step isInMainFile T e).2 = [] := by
  have hstack : ∀ K, ∀ x ∈ T.stack K, x.Condition ≠ o.Text := by
    intro K x hx
    rw [hrep K] at hx
    obtain ⟨y, hy, hyx⟩ := mem_entriesOf_text K R x hx
    exact hyx ▸ hdiff y hy
  rw [step_opened_diags isInMainFile T e o ho]
  have hc : crossReports T o = [] := by
    unfold crossReports
    cases oppositeKind o.Kind with
    | none => rfl
    | some K => exact reportsFor_eq_nil _ _ _ _ _ (hstack K)
  rw [reportsFor_eq_nil _ _ _ _ _ (hstack o.Kind), hc]
  simp

/-- A well-formed continuation in which every opened directive differs in text from the
directives open at that moment emits nothing. -/
theorem run_silent (isInMainFile : SourceLocation → Bool) (evs : List Event) (T : Tracker)
    (R : List OpenDirective) (hrep : Represents T R) (hwf : WellFormedFrom R evs)
    (hdiff : ∀ pre e post o, evs = pre ++ e :: post → e.opened = some o →
      ∀ x ∈ stillOpen R pre, x.Text ≠ o.Text) :
    (run isInMainFile T evs).2 = [] := by
  induction evs generalizing T R with
  | nil => rfl
  | cons e es ih =>
    have h1 : (step isInMainFile T e).2 = [] := by
      cases ho : e.opened with
      | none =>
        obtain ⟨Loc, IfLoc, rfl⟩ := opened_none e ho
        rfl
      | some o => exact step_silent isInMainFile T R e o hrep ho (hdiff [] e es o rfl ho)
    have h2 := ih (step isInMainFile T e).1 (openStep R e)
      (step_represents isInMainFile T R e es hrep hwf) (wellFormedFrom_cons R e es hwf).1
      (by
        intro pre e2 post o heq ho2
        exact hdiff (e :: pre) e2 post o (by rw [heq]; rfl) ho2)
    simp only [run, h1, h2, List.append_nil]

/-- C12: a well-formed stream run from the empty tracker in which the condition text of every
opened directive differs from the text of every directive opened and not yet closed at that
moment emits no diagnostics, whatever the nesting depth, the kinds of the directives and the
main-file predicate. -/
theorem no_false_positives (isInMainFile : SourceLocation → Bool) (evs : List Event)
    (hwf : WellFormed evs)
    (hdiff : ∀ i < evs.length, ∀ e ∈ evs[i]?, ∀ o ∈ e.opened,
      ∀ x ∈ notYetClosed (evs.take i), x.Text ≠ o.Text) :
    (run isInMainFile Tracker.empty evs).2 = [] := by
  apply run_silent isInMainFile evs Tracker.empty [] represents_empty
    ((wellFormedFrom_nil_iff evs).mpr hwf)
  intro pre e post o heq ho x hx
  have hlen : pre.length < evs.length := by rw [heq]; simp
  have hget : evs[pre.length]? = some e := by
    rw [heq, List.getElem?_append_right (le_refl _)]; simp
  have htake : evs.take pre.length = pre := by rw [heq]; simp
  have hpre : WellFormed pre := wellFormed_prefix pre (e :: post) (heq ▸ hwf)
  rw [stillOpen_eq_notYetClosed pre hpre] at hx
  exact hdiff pre.length hlen e hget o ho x (htake.symm ▸ hx)

/-- Witness of C12 on `differingNest`: ten events, nesting depth four, all three kinds, main
file and included file, the text `B` used twice but never while a `B` is open. -/
theorem no_false_positives_witness :
    WellFormed differingNest
      ∧ (run mainBelow100 Tracker.empty differingNest).2 = []
      ∧ (run allMain Tracker.empty differingNest).2 = [] :=
  ⟨by decide,
   no_false_positives mainBelow100 differingNest (by decide) (by decide),
   by decide⟩

/-! ## All enclosing matches are reported -/

theorem openEvent_opened (K : DirectiveKind) (Loc : SourceLocation) (Text : String) :
    (openEvent K Loc Text).opened = some ⟨K, Loc, Text⟩ := by
  cases K <;> rfl

/-- The stacks after a row of nested open events of kind `K` with the text `c`. -/
theorem run_nested_stack (isInMainFile : SourceLocation → Bool) (K : DirectiveKind)
    (c : String) (locs : List SourceLocation) (T : Tracker) (K2 : DirectiveKind) :
    (run isInMainFile T (locs.map (fun H => openEvent K H c))).1.stack K2
      = T.stack K2 ++ if K2 = K then locs.map (fun H => (⟨H, c⟩ : PreprocessorEntry)) else [] := by
  induction locs generalizing T with
  | nil => simp [run]
  | cons L rest ih =>
    simp only [List.map_cons, run]
    rw [ih, step_opened_stack isInMainFile T _ _ (openEvent_opened K L c) K2]
    by_cases h : K2 = K
    · subst h; simp [entriesOf]
    · have h2 : ¬ K = K2 := fun h3 => h h3.symm
      simp [entriesOf, h, h2]

/-- The diagnostics of an open event of kind `K` with the text `c` nested in a row of such
events run from the empty tracker. -/
theorem step_nested_diags (isInMainFile : SourceLocation → Bool) (K : DirectiveKind)
    (c : String) (outer : List SourceLocation) (L : SourceLocation)
    (hmain : isInMainFile L = true) :
    (step isInMainFile
        (run isInMainFile Tracker.empty (outer.map (fun H => openEvent K H c))).1
        (openEvent K L c)).2
      = unpair (outer.map (fun H => ((⟨Level.Warning, L, K⟩ : Diagnostic),
                                     (⟨Level.Note, H, K⟩ : Diagnostic)))) := by
  have hempty : ∀ K2, Tracker.empty.stack K2 = [] := by intro K2; cases K2 <;> rfl
  rw [step_opened_diags isInMainFile _ _ _ (openEvent_opened K L c)]
  simp only [hmain, if_true]
  have hcross : crossReports
      (run isInMainFile Tracker.empty (outer.map (fun H => openEvent K H c))).1 ⟨K, L, c⟩
      = [] := by
    unfold crossReports
    cases hK : oppositeKind K with
    | none => simp [hK]
    | some K2 =>
      have hne : K2 ≠ K := oppositeKind_ne K K2 hK
      simp only [hK]
      rw [run_nested_stack, hempty, if_neg hne]
      rfl
  rw [hcross, List.append_nil, run_nested_stack, hempty, if_pos rfl, List.nil_append,
    reportsFor_eq_unpair]
  congr 1
  rw [List.filter_eq_self.mpr]
  · simp [List.map_map, Function.comp_def]
  · intro x hx
    obtain ⟨H, _, rfl⟩ := List.mem_map.mp hx
    simp

theorem nested_total (n : Nat) : (n + 1) * (n + 1 - 1) = n * (n - 1) + 2 * n := by
  cases n with
  | zero => rfl
  | succ m => simp only [Nat.add_sub_cancel]; ring

/-- C13: let directives of kind `K` with the text `c` be opened at the main-file locations
`locs`, one inside the other, from the empty tracker and without an `Endif`.  The directive at
position `k` (counting from 0) emits one (warning at its location, note) pair for each of the
`k` directives opened before it, the notes at their locations in opening order, both kinds
`K`; the run emits `n (n - 1) / 2` pairs in all, `n` being the number of directives. -/
theorem all_enclosing_matches (isInMainFile : SourceLocation → Bool) (K : DirectiveKind)
    (c : String) (locs : List SourceLocation) (hmain : ∀ L ∈ locs, isInMainFile L = true) :
    (∀ k L, locs[k]? = some L →
        (step isInMainFile
            (run isInMainFile Tracker.empty ((locs.take k).map (fun H => openEvent K H c))).1
            (openEvent K L c)).2
          = unpair ((locs.take k).map
              (fun H => ((⟨Level.Warning, L, K⟩ : Diagnostic),
                         (⟨Level.Note, H, K⟩ : Diagnostic))))
        ∧ (pairs (step isInMainFile
            (run isInMainFile Tracker.empty ((locs.take k).map (fun H => openEvent K H c))).1
            (openEvent K L c)).2).length = k)
      ∧ (pairs (run isInMainFile Tracker.empty
          (locs.map (fun H => openEvent K H c))).2).length
        = locs.length * (locs.length - 1) / 2 := by
  constructor
  · intro k L hk
    have hL : L ∈ locs := List.getElem?_mem hk
    have hlt : k < locs.length := by
      rcases List.getElem?_eq_some_iff.mp hk with ⟨h, _⟩
      exact h
    have h := step_nested_diags isInMainFile K c (locs.take k) L (hmain L hL)
    refine ⟨h, ?_⟩
    rw [h, pairs_unpair, List.length_map, List.length_take]
    omega
  · have key : ∃ ps, (run isInMainFile Tracker.empty
          (locs.map (fun H => openEvent K H c))).2 = unpair ps
        ∧ ps.length * 2 = locs.length * (locs.length - 1) := by
      induction locs using List.reverseRecOn with
      | nil => exact ⟨[], rfl, rfl⟩
      | append_singleton l L ih =>
        obtain ⟨ps, hps, hlen⟩ := ih (fun x hx => hmain x (List.mem_append_left _ hx))
        refine ⟨ps ++ l.map (fun H => ((⟨Level.Warning, L, K⟩ : Diagnostic),
            (⟨Level.Note, H, K⟩ : Diagnostic))), ?_, ?_⟩
        · rw [List.map_append, run_append, unpair_append, ← hps]
          simp only [List.map_cons, List.map_nil, run_singleton]
          rw [step_nested_diags isInMainFile K c l L (hmain L (by simp))]
        · rw [List.length_append, List.length_map, List.length_append, List.length_singleton,
            nested_total, ← hlen]
          ring
    obtain ⟨ps, hps, hlen⟩ := key
    rw [hps, pairs_unpair]
    omega

/-- Witness of C13 on `#if X / #if X / #if X`: the second directive is reported against the
first, the third against the first and the second, three pairs in all. -/
theorem all_enclosing_matches_witness :
    (run allMain Tracker.empty tripleIf).2
        = [⟨Level.Warning, 2, DirectiveKind.DK_If⟩, ⟨Level.Note, 1, DirectiveKind.DK_If⟩,
           ⟨Level.Warning, 3, DirectiveKind.DK_If⟩, ⟨Level.Note, 1, DirectiveKind.DK_If⟩,
           ⟨Level.Warning, 3, DirectiveKind.DK_If⟩, ⟨Level.Note, 2, DirectiveKind.DK_If⟩]
      ∧ (pairs (run allMain Tracker.empty
          ([1, 2, 3].map (fun H => openEvent DirectiveKind.DK_If H "X"))).2).length
        = 3 * (3 - 1) / 2
      ∧ (step allMain
            (run allMain Tracker.empty
              (([1, 2, 3].take 2).map (fun H => openEvent DirectiveKind.DK_If H "X"))).1
            (openEvent DirectiveKind.DK_If 3 "X")).2
          = unpair (([1, 2, 3].take 2).map
              (fun H => ((⟨Level.Warning, 3, DirectiveKind.DK_If⟩ : Diagnostic),
                         (⟨Level.Note, H, DirectiveKind.DK_If⟩ : Diagnostic))))
      ∧ [1, 2, 3].map (fun H => openEvent DirectiveKind.DK_If H "X") = tripleIf :=
  ⟨by decide,
   (all_enclosing_matches allMain DirectiveKind.DK_If "X" [1, 2, 3] (fun _ _ => rfl)).2,
   ((all_enclosing_matches allMain DirectiveKind.DK_If "X" [1, 2, 3] (fun _ _ => rfl)).1
      2 3 rfl).1,
   by decide⟩

/-! ## A balanced block restores the tracker -/

theorem tracker_eq_of_stack (T S : Tracker) (h : ∀ K, T.stack K = S.stack K) : T = S := by
  have h1 := h DirectiveKind.DK_If
  have h2 := h DirectiveKind.DK_Ifdef
  have h3 := h DirectiveKind.DK_Ifndef
  simp only [Tracker.stack] at h1 h2 h3
  cases T; cases S
  simp only [Tracker.mk.injEq]
  exact ⟨h1, h2, h3⟩

/-- On a tracker that holds the entries of `s` below those of the open directives `R ++ [o]`,
the `Endif` for `o` removes the entry of `o` and nothing else, provided the locations of the
open directives are pairwise distinct and that of `o` is not stored in `s`. -/
theorem Endif_over (s T : Tracker) (R : List OpenDirective) (o : OpenDirective)
    (Loc : SourceLocation) (hrep : ∀ K, T.stack K = s.stack K ++ entriesOf K (R ++ [o]))
    (hnd : ((R ++ [o]).map (fun x => x.Loc)).Nodup) (hfresh : o.Loc ∉ s.locs) (K : DirectiveKind) :
    (Endif T Loc o.Loc).stack K = s.stack K ++ entriesOf K R := by
  have hnot : o.Loc ∉ R.map (fun x => x.Loc) := by
    rw [List.map_append, List.nodup_append] at hnd
    intro hmem
    exact hnd.2.2 hmem (by simp)
  rw [Endif_stack, hrep K, entriesOf_append]
  by_cases hK : K = o.Kind
  · subst hK
    rw [entriesOf_singleton_same, ← List.append_assoc, popIfBack_concat]
    simp
  · rw [entriesOf_singleton_other K o hK, List.append_nil]
    apply popIfBack_of_ne
    intro e he heq
    have hmem : e ∈ s.stack K ++ entriesOf K R := List.mem_of_getLast?_eq_some he
    rcases List.mem_append.mp hmem with h | h
    · exact hfresh (heq ▸ mem_locs_of_mem_stack s K e h)
    · exact hnot (heq ▸ mem_entriesOf_loc K R e h)

/-- Along a well-formed continuation whose locations are not stored in `s`, the stacks are
those of `s` followed by the entries of the open directives. -/
theorem run_over (isInMainFile : SourceLocation → Bool) (s : Tracker) (evs : List Event)
    (T : Tracker) (R : List OpenDirective)
    (hrep : ∀ K, T.stack K = s.stack K ++ entriesOf K R) (hwf : WellFormedFrom R evs)
    (hfresh : ∀ L ∈ R.map (fun x => x.Loc) ++ openLocs evs, L ∉ s.locs) (K : DirectiveKind) :
    (run isInMainFile T evs).1.stack K = s.stack K ++ entriesOf K (stillOpen R evs) := by
  induction evs generalizing T R with
  | nil => exact hrep K
  | cons e es ih =>
    rw [stillOpen_cons]
    have hwf2 := (wellFormedFrom_cons R e es hwf).1
    cases ho : e.opened with
    | some o =>
      apply ih _ _ _ hwf2
      · intro L hL
        apply hfresh L
        rw [openStep_opened R e o ho] at hL
        rw [openLocs_cons_opened e es o ho]
        simpa [List.append_assoc] using hL
      · intro K2
        rw [step_opened_stack isInMainFile T e o ho K2, openStep_opened R e o ho,
          entriesOf_append, hrep K2, List.append_assoc]
    | none =>
      obtain ⟨Loc, IfLoc, rfl⟩ := opened_none e ho
      obtain ⟨R1, o, rfl, rfl⟩ := (wellFormedFrom_cons _ _ es hwf).2 Loc IfLoc rfl
      have hnd : ((R1 ++ [o]).map (fun x => x.Loc)).Nodup :=
        hwf.1.sublist (List.sublist_append_left _ _)
      have hoF : o.Loc ∉ s.locs := hfresh o.Loc (by simp)
      apply ih _ _ _ hwf2
      · intro L hL
        apply hfresh L
        rw [openStep_Endif, List.dropLast_concat] at hL
        rw [openLocs_cons_Endif]
        rcases List.mem_append.mp hL with h | h
        · exact List.mem_append_left _ (by
            rw [List.map_append]; exact List.mem_append_left _ h)
        · exact List.mem_append_right _ h
      · intro K2
        rw [openStep_Endif, List.dropLast_concat]
        exact Endif_over s T R1 o Loc hrep hnd hoF K2

/-- A balanced block with fresh, pairwise distinct locations leaves the tracker as it was. -/
theorem run_balanced (isInMainFile : SourceLocation → Bool) (s : Tracker) (evs : List Event)
    (hbal : Balanced evs) (hnd : (openLocs evs).Nodup)
    (hfresh : ∀ L ∈ openLocs evs, L ∉ s.locs) :
    (run isInMainFile s evs).1 = s := by
  apply tracker_eq_of_stack
  intro K
  have h := run_over isInMainFile s evs s [] (by intro K2; simp [entriesOf])
    ⟨by simpa using hnd, hbal.1⟩ (by simpa using hfresh) K
  rw [h, hbal.2]
  simp [entriesOf]

theorem step_empty_silent (isInMainFile : SourceLocation → Bool) (e : Event) :
    (step isInMainFile Tracker.empty e).2 = [] := by
  cases ho : e.opened with
  | none =>
    obtain ⟨Loc, IfLoc, rfl⟩ := opened_none e ho
    rfl
  | some o => exact step_silent isInMainFile _ [] e o represents_empty ho (by simp)

/-- C14: running a balanced block (each `Endif` carrying the location of its matching open)
whose open locations are pairwise distinct and not stored in the tracker `s` ends with the
three stacks of `s`, so that the next event behaves as if the block had not been there; in
particular a well-formed stream from the empty tracker that closes all it opens ends with the
three stacks empty and the next event emits nothing, so two sequential directives with the same
condition text produce no diagnostic. -/
theorem balanced_restores (isInMainFile : SourceLocation → Bool) (s : Tracker)
    (evs : List Event) (hbal : Balanced evs) (hnd : (openLocs evs).Nodup)
    (hfresh : ∀ L ∈ openLocs evs, L ∉ s.locs) :
    (run isInMainFile s evs).1 = s
      ∧ (∀ e, step isInMainFile (run isInMainFile s evs).1 e = step isInMainFile s e)
      ∧ (∀ tu, WellFormed tu → stillOpen [] tu = [] →
          (run isInMainFile Tracker.empty tu).1 = Tracker.empty
            ∧ ∀ e, (step isInMainFile (run isInMainFile Tracker.empty tu).1 e).2 = [])
      ∧ ∀ (K : DirectiveKind) (c : String) (L1 L2 E1 E2 : SourceLocation),
          (run isInMainFile Tracker.empty
            [openEvent K L1 c, Event.Endif E1 L1, openEvent K L2 c, Event.Endif E2 L2]).2
            = [] := by
  have h := run_balanced isInMainFile s evs hbal hnd hfresh
  refine ⟨h, fun e => by rw [h], ?_, ?_⟩
  · intro tu hwf hclosed
    have h2 := run_balanced isInMainFile Tracker.empty tu ⟨hwf.2, hclosed⟩ hwf.1
      (by intro L _; simp [Tracker.locs, Tracker.empty])
    exact ⟨h2, fun e => by rw [h2]; exact step_empty_silent isInMainFile e⟩
  · intro K c L1 L2 E1 E2
    have hblock : (run isInMainFile Tracker.empty [openEvent K L1 c, Event.Endif E1 L1]).1
        = Tracker.empty :=
      run_balanced isInMainFile Tracker.empty _
        ⟨by cases K <;>
            simp [openEvent, closesInnermost, carriesInnermost, openStep, Event.opened],
         by cases K <;> simp [openEvent, stillOpen, openStep, Event.opened]⟩
        (by cases K <;> simp [openEvent, openLocs, Event.opened])
        (by intro L _; simp [Tracker.locs, Tracker.empty])
    have hsplit : [openEvent K L1 c, Event.Endif E1 L1, openEvent K L2 c, Event.Endif E2 L2]
        = [openEvent K L1 c, Event.Endif E1 L1] ++ [openEvent K L2 c, Event.Endif E2 L2] := rfl
    rw [hsplit, run_append, hblock]
    simp only [run, step_empty_silent, List.append_nil, List.nil_append]
    rfl

/-- Witness of C14 on two sequential `#ifdef FOO` blocks: run inside an open `#if A` and an
open `#ifdef FOO` they leave the stacks as they were, and each is reported against the
enclosing `#ifdef FOO` only; run from the empty tracker they emit nothing. -/
theorem balanced_restores_witness :
    Balanced sequentialIfdef
      ∧ (run allMain ⟨[⟨50, "A"⟩], [⟨51, "FOO"⟩], []⟩ sequentialIfdef).1
          = ⟨[⟨50, "A"⟩], [⟨51, "FOO"⟩], []⟩
      ∧ (run allMain ⟨[⟨50, "A"⟩], [⟨51, "FOO"⟩], []⟩ sequentialIfdef).2
          = [⟨Level.Warning, 1, DirectiveKind.DK_Ifdef⟩, ⟨Level.Note, 51, DirectiveKind.DK_Ifdef⟩,
             ⟨Level.Warning, 3, DirectiveKind.DK_Ifdef⟩, ⟨Level.Note, 51, DirectiveKind.DK_Ifdef⟩]
      ∧ run allMain Tracker.empty sequentialIfdef = (Tracker.empty, []) :=
  ⟨by decide,
   (balanced_restores allMain ⟨[⟨50, "A"⟩], [⟨51, "FOO"⟩], []⟩ sequentialIfdef
      (by decide) (by decide) (by decide)).1,
   by decide, by decide⟩
end RedundantPreprocessor
